import Mathlib

/-!
Verification model of the INI configuration engine described in `spec.md`.

The repository ships only notebooks exercising the engine (usage examples with
recorded outputs); the engine itself is not part of the source tree.  All
engine definitions below are therefore modelled from the spec, and the
notebooks' recorded outputs are used as concrete test vectors.

The model is a shallow embedding: a `Document` is an ordered association
structure (Defaults Section plus regular sections), the parser is a fold over
the physical lines of the input, interpolation is a fuel-bounded recursive
substitution, and the typed accessor layer converts resolved strings.
-/

namespace Config

/-- Ordered association-list lookup: the value at the first exactly-equal key. -/
def alookup {β : Type} : List (String × β) → String → Option β
  | [], _ => none
  | p :: rest, key => if p.1 = key then some p.2 else alookup rest key

/-- Ordered association-list store: overwrite in place when the key is present
(keeping its original position), otherwise append at the end. -/
def aset {β : Type} : List (String × β) → String → β → List (String × β)
  | [], key, v => [(key, v)]
  | p :: rest, key, v => if p.1 = key then (p.1, v) :: rest else p :: aset rest key v

/-- Ordered association-list removal of the first binding of a key. -/
def aremove {β : Type} : List (String × β) → String → List (String × β)
  | [], _ => []
  | p :: rest, key => if p.1 = key then rest else p :: aremove rest key

/-- Lowercase an ASCII letter; other characters are unchanged.  Modelled from
the spec: option keys are "normalized to a canonical lowercase form". -/
def charLower (c : Char) : Char :=
  if 65 ≤ c.toNat ∧ c.toNat ≤ 90 then Char.ofNat (c.toNat + 32) else c

/-- Key normalization applied to every option key before comparison or storage.
Modelled from the spec: option names are "always case-insensitive, normalized
lowercase"; section names are untouched. -/
def optionxform (s : String) : String := ⟨s.data.map charLower⟩

/-- Space or tab, the insignificant whitespace inside a physical line. -/
def isWsC (c : Char) : Bool := c == ' ' || c == '\t'

/-- Drop leading and trailing spaces/tabs from a character list. -/
def trimChars (cs : List Char) : List Char :=
  ((cs.dropWhile isWsC).reverse.dropWhile isWsC).reverse

/-- Drop leading and trailing spaces/tabs from a string.  Modelled from the
spec: "Leading/trailing whitespace on both key and value is stripped". -/
def strim (s : String) : String := ⟨trimChars s.data⟩

/-- Split a character list at newline characters (never returns `[]`). -/
def splitNl : List Char → List (List Char)
  | [] => [[]]
  | c :: rest =>
    if c = '\n' then [] :: splitNl rest
    else
      match splitNl rest with
      | [] => [[c]]
      | l :: ls => (c :: l) :: ls

/-- The physical lines of a (possibly multiline) raw value. -/
def vlines (v : String) : List String := (splitNl v.data).map (fun cs => ⟨cs⟩)

/-- Join strings with newline separators (inverse of `vlines`). -/
def sjoin : List String → String
  | [] => ""
  | [x] => x
  | x :: xs => x ++ "\n" ++ sjoin xs

/-- A run of `n` newline characters. -/
def nlRep (n : Nat) : String := ⟨List.replicate n '\n'⟩

/-- The in-memory configuration model.  Modelled from the spec's Data Model: a
Document owns one implicit Defaults Section plus an ordered sequence of named
sections, each an ordered mapping from normalized option key to raw value. -/
structure Document where
  defaults : List (String × String)
  sections : List (String × List (String × String))
deriving Repr, DecidableEq

/-- The Document with no defaults and no sections. -/
def emptyDocument : Document := ⟨[], []⟩

/-- Names of the regular sections, in insertion order (Defaults excluded). -/
def sectionNames (d : Document) : List String := d.sections.map Prod.fst

/-- Exact-case membership test for a regular section name.  Modelled from the
spec: section names are "case-sensitive". -/
def hasSection (d : Document) (s : String) : Bool := (alookup d.sections s).isSome

/-- Stored options of a regular section (empty list when the section is absent). -/
def sectOpts (d : Document) (s : String) : List (String × String) :=
  (alookup d.sections s).getD []

/-- Create a section if absent; keep it (and its position) if present. -/
def ensureSection (d : Document) (n : String) : Document :=
  if (alookup d.sections n).isSome then d
  else { d with sections := d.sections ++ [(n, [])] }

/-- Store a key/value pair into the scope designated by `cur`: `none` targets
the Defaults Section, `some s` targets regular section `s` (creating it if it
is somehow absent).  The key is expected to be already normalized. -/
def storeKV (d : Document) (cur : Option String) (k v : String) : Document :=
  match cur with
  | none => { d with defaults := aset d.defaults k v }
  | some s => { d with sections := aset d.sections s (aset (sectOpts d s) k v) }

/-- Raw stored value of `k` in the scope designated by `cur`, without the
Defaults fall-through. -/
def curLookup (d : Document) (cur : Option String) (k : String) : Option String :=
  match cur with
  | none => alookup d.defaults k
  | some s => alookup (sectOpts d s) k

/-- Mapping-protocol read `config[s][k]`: the section's own stored value, else
the Defaults Section's value; keys are normalized first. -/
def itemGet (d : Document) (s k : String) : Option String :=
  if s = "DEFAULT" then alookup d.defaults (optionxform k)
  else
    match alookup d.sections s with
    | none => none
    | some opts =>
      match alookup opts (optionxform k) with
      | some v => some v
      | none => alookup d.defaults (optionxform k)

/-- Merge one source section into a Document: upsert the section, then store
each key in order (overwrite-if-present).  Modelled from the spec's
multi-source merge rules. -/
def mergeSect (d : Document) (n : String) (opts : List (String × String)) : Document :=
  opts.foldl (fun acc p => storeKV acc (some n) p.1 p.2) (ensureSection d n)

/-- Errors surfaced by the accessor layer.  Modelled from the spec's error
taxonomy (missing-section, missing-option, interpolation, type coercion). -/
inductive InterpErr where
  | depthExceeded
  | missingKey (name : String)
  | badSyntax
deriving Repr, DecidableEq

inductive ConfigErr where
  | noSection (s : String)
  | noOption (s k : String)
  | interp (e : InterpErr)
  | notABool (v : String)
deriving Repr, DecidableEq

/-- Caller-supplied fallback: `unset` means no fallback was supplied (the
engine's internal absent marker); `val v` is an explicit fallback value, where
`v = none` models the host language's null value. -/
inductive Fallback (α : Type) where
  | unset
  | val (v : Option α)
deriving Repr, DecidableEq

/-- Fixed bound on interpolation recursion.  Modelled from the spec: "a fixed
maximum recursion depth (e.g. 10) must be enforced". -/
def MAX_INTERPOLATION_DEPTH : Nat := 10

/-- Scanner mode for one level of interpolation: scanning literal text, just
after a `%`, accumulating a placeholder name (in reverse) after `%(`, or
expecting the final `s` after `%(name)`. -/
inductive IMode where
  | top
  | pct
  | name (acc : List Char)
  | fin (acc : List Char)
deriving Repr, DecidableEq

/-- One level of the interpolation scan, as a character state machine.
Modelled from the spec: recognize `%(name)s` placeholders, resolve `name`
through the supplied lookup, recurse (via `rec`) into the resolved value when
it may itself contain placeholders; `%%` yields a literal `%`; any other use
of `%` signals a syntax error. -/
def interpStep (lk : String → Option String)
    (rec : List Char → Except InterpErr (List Char)) :
    IMode → List Char → Except InterpErr (List Char)
  | .top, [] => .ok []
  | .top, c :: rest =>
    if c = '%' then interpStep lk rec .pct rest
    else (interpStep lk rec .top rest).map (fun r => c :: r)
  | .pct, [] => .error .badSyntax
  | .pct, c :: rest =>
    if c = '%' then (interpStep lk rec .top rest).map (fun r => '%' :: r)
    else if c = '(' then interpStep lk rec (.name []) rest
    else .error .badSyntax
  | .name _, [] => .error .badSyntax
  | .name acc, c :: rest =>
    if c = ')' then interpStep lk rec (.fin acc) rest
    else interpStep lk rec (.name (c :: acc)) rest
  | .fin _, [] => .error .badSyntax
  | .fin acc, c :: rest =>
    if c = 's' then
      match lk ⟨acc.reverse⟩ with
      | none => .error (.missingKey ⟨acc.reverse⟩)
      | some v =>
        if v.data.contains '%' then
          match rec v.data with
          | .error e => .error e
          | .ok rv => (interpStep lk rec .top rest).map (fun r => rv ++ r)
        else (interpStep lk rec .top rest).map (fun r => v.data ++ r)
    else .error .badSyntax

/-- Depth-bounded recursive interpolation.  Modelled from the spec: resolution
is recursive and a fixed maximum recursion depth is enforced; exhausting it
signals "interpolation depth exceeded". -/
def interpAt (lk : String → Option String) : Nat → List Char → Except InterpErr (List Char)
  | 0, _ => .error .depthExceeded
  | d + 1, cs => interpStep lk (interpAt lk d) .top cs

/-- Normalize the keys of a caller-supplied variable-override map. -/
def varsNorm (vars : List (String × String)) : List (String × String) :=
  vars.map (fun p => (optionxform p.1, p.2))

/-- Variable lookup used by one read operation.  Modelled from the spec's
precedence: (1) the caller's override map, (2) the current section's own
stored value, (3) the Defaults Section's value, else unresolved. -/
def varLookup (d : Document) (s : String) (vars : List (String × String))
    (name : String) : Option String :=
  match alookup (varsNorm vars) (optionxform name) with
  | some v => some v
  | none =>
    match alookup (sectOpts d s) (optionxform name) with
    | some v => some v
    | none => alookup d.defaults (optionxform name)

/-- Interpolate a raw value under the standard depth bound. -/
def interpolate (lk : String → Option String) (v : String) : Except InterpErr String :=
  (interpAt lk MAX_INTERPOLATION_DEPTH v.data).map (fun cs => ⟨cs⟩)

/-- Accessor-layer read.  Modelled from the spec: the value to use is the
key's stored value in the section or Defaults (with the override map taking
precedence over everything for a single read); a fallback is used only when
the key is absent from section, Defaults and override map; with no fallback a
true absence signals "no such option" (or "no such section"). -/
def get (d : Document) (s k : String) (raw : Bool) (vars : List (String × String))
    (fb : Fallback String) : Except ConfigErr (Option String) :=
  if s = "DEFAULT" ∨ (alookup d.sections s).isSome then
    match varLookup d s vars k with
    | some v =>
      if raw then .ok (some v)
      else
        match interpolate (varLookup d s vars) v with
        | .ok r => .ok (some r)
        | .error e => .error (.interp e)
    | none =>
      match fb with
      | .unset => .error (.noOption s k)
      | .val v => .ok v
  else
    match fb with
    | .unset => .error (.noSection s)
    | .val v => .ok v

/-- Recognized boolean spellings.  Modelled from the spec: case-insensitive,
exactly true/false, yes/no, on/off, 1/0. -/
def BOOLEAN_STATES : List (String × Bool) :=
  [("1", true), ("yes", true), ("true", true), ("on", true),
   ("0", false), ("no", false), ("false", false), ("off", false)]

/-- Parse a resolved string as a boolean, or signal "not a boolean". -/
def parseBool (v : String) : Except ConfigErr Bool :=
  match alookup BOOLEAN_STATES (optionxform v) with
  | some b => .ok b
  | none => .error (.notABool v)

/-- Typed accessor for booleans.  The fallback applies only to a missing
section/option; interpolation and coercion errors propagate. -/
def getboolean (d : Document) (s k : String) (raw : Bool)
    (vars : List (String × String)) (fb : Fallback Bool) : Except ConfigErr (Option Bool) :=
  match get d s k raw vars .unset with
  | .ok (some v) =>
    match parseBool v with
    | .ok b => .ok (some b)
    | .error e => .error e
  | .ok none => .ok none
  | .error (.noSection s') =>
    match fb with
    | .unset => .error (.noSection s')
    | .val b => .ok b
  | .error (.noOption s' k') =>
    match fb with
    | .unset => .error (.noOption s' k')
    | .val b => .ok b
  | .error e => .error e

/-- Host-language values accepted by `read_dict`; the Document itself only
ever stores strings. -/
inductive PyVal where
  | str (v : String)
  | int (n : Int)
  | bool (v : Bool)
deriving Repr, DecidableEq

/-- String form a non-string value is converted to on storage. -/
def PyVal.toStr : PyVal → String
  | .str v => v
  | .int n => toString n
  | .bool true => "True"
  | .bool false => "False"

/-- Merge a pre-structured mapping into a Document.  Modelled from the spec:
a sequence of pre-structured key/value mappings is a valid source for direct
merge; keys are normalized and values converted to their string form. -/
def read_dict (d : Document) (entries : List (String × List (String × PyVal))) : Document :=
  entries.foldl
    (fun acc sec =>
      let target : Option String := if sec.1 = "DEFAULT" then none else some sec.1
      let acc' :=
        match target with
        | some n => ensureSection acc n
        | none => acc
      sec.2.foldl (fun a kv => storeKV a target (optionxform kv.1) kv.2.toStr) acc')
    d

/-- Remove a regular section; a name not among the regular sections (the
Defaults Section in particular) signals "no such section". -/
def remove_section (d : Document) (n : String) : Except ConfigErr Document :=
  if (alookup d.sections n).isSome then .ok { d with sections := aremove d.sections n }
  else .error (.noSection n)

/-- Mapping-protocol section assignment.  Assigning to the Defaults Section
clears it and stores the new pairs; assigning a regular section replaces it. -/
def setSectionItem (d : Document) (n : String) (m : List (String × String)) : Document :=
  if n = "DEFAULT" then { d with defaults := varsNorm m }
  else { d with sections := aremove d.sections n ++ [(n, varsNorm m)] }

/-- Structural parse errors, each carrying the offending line or name. -/
inductive ParseErr where
  | malformedHeader (line : String)
  | duplicateSection (name : String)
  | missingDelimiter (line : String)
  | emptyKey (line : String)
deriving Repr, DecidableEq

/-- Parser state: the document built so far, the current scope (`none` is the
Defaults Section), the option currently open for continuation lines together
with its key line's indentation, the number of buffered blank lines inside
that value, and the section names seen in this parse pass. -/
structure PState where
  doc : Document
  cur : Option String
  curOpt : Option (String × Nat)
  blanks : Nat
  seen : List String
deriving Repr, DecidableEq

/-- Indentation depth of a physical line (leading spaces/tabs). -/
def indentOf (s : String) : Nat := (s.data.takeWhile isWsC).length

/-- A comment line is one whose first non-whitespace character is `#` or `;`. -/
def isCommentLine (t : String) : Bool :=
  match t.data with
  | c :: _ => c == '#' || c == ';'
  | [] => false

/-- Recognize a (whitespace-trimmed) section header `[name]`; the name may not
contain `]` and keeps its inner whitespace. -/
def parseHeader : List Char → Option String
  | [] => none
  | c :: rest =>
    if c = '[' ∧ rest.getLast? = some ']' then
      (if rest.dropLast.contains ']' then none else some ⟨rest.dropLast⟩)
    else none

/-- Split a trimmed line at the first `=` or `:` delimiter occurrence. -/
def splitDelim : List Char → Option (List Char × List Char)
  | [] => none
  | c :: rest =>
    if c = '=' ∨ c = ':' then some ([], rest)
    else (splitDelim rest).map (fun p => (c :: p.1, p.2))

/-- Append a continuation fragment to the currently open option's value, with
one newline separator plus one newline per buffered blank line. -/
def appendFrag (d : Document) (cur : Option String) (k : String) (blanks : Nat)
    (frag : String) : Document :=
  match curLookup d cur k with
  | some old => storeKV d cur k (old ++ nlRep (blanks + 1) ++ frag)
  | none => storeKV d cur k frag

/-- Classify a non-blank, non-comment, non-continuation line (section header
or key/value) and apply it; expects `st.curOpt = none` and `st.blanks = 0`. -/
def classify (st : PState) (line t : String) : Except ParseErr PState :=
  match parseHeader t.data with
  | some name =>
    if name = "DEFAULT" then .ok { st with cur := none, curOpt := none }
    else if st.seen.contains name then .error (.duplicateSection name)
    else .ok { st with doc := ensureSection st.doc name, cur := some name,
                       seen := name :: st.seen, curOpt := none }
  | none =>
    if t.data.head? = some '[' then .error (.malformedHeader line)
    else
      match splitDelim t.data with
      | none => .error (.missingDelimiter line)
      | some kv =>
        let key := optionxform (strim ⟨kv.1⟩)
        if key = "" then .error (.emptyKey line)
        else .ok { st with doc := storeKV st.doc st.cur key (strim ⟨kv.2⟩),
                           curOpt := some (key, indentOf line) }

/-- One parser step on one physical line.  Modelled from the spec's line
classification: blank lines inside an open value are buffered (preserved if
the value continues), comment lines are discarded entirely, a line indented
strictly deeper than the open value's key line is a continuation, and any
other line closes the open value and is a header or key/value line. -/
def pstep (st : PState) (line : String) : Except ParseErr PState :=
  let t := strim line
  if t = "" then
    .ok (if st.curOpt.isSome then { st with blanks := st.blanks + 1 } else st)
  else if isCommentLine t then .ok st
  else
    match st.curOpt with
    | some ki =>
      if ki.2 < indentOf line then
        .ok { st with doc := appendFrag st.doc st.cur ki.1 st.blanks t, blanks := 0 }
      else classify { st with curOpt := none, blanks := 0 } line t
    | none => classify { st with blanks := 0 } line t

/-- Fold the parser over a list of physical lines. -/
def pfold : List String → PState → Except ParseErr PState
  | [], st => .ok st
  | l :: ls, st =>
    match pstep st l with
    | .ok st' => pfold ls st'
    | .error e => .error e

/-- Initial parser state over an existing Document: the current scope starts
as the Defaults Section and no sections have been seen in this pass. -/
def initState (d : Document) : PState := ⟨d, none, none, 0, []⟩

/-- Parse a source, given as its list of physical lines, into a Document
(multi-source merge: `d` is the already-populated Document). -/
def read_lines (lines : List String) (d : Document) : Except ParseErr Document :=
  (pfold lines (initState d)).map (fun st => st.doc)

/-- Parse a source given as one text buffer. -/
def read_string (s : String) (d : Document) : Except ParseErr Document :=
  read_lines (s.splitOn "\n") d

/-- Serializer, value part: first physical line after `key = `, further lines
indented with one tab.  Modelled from the spec: multiline values are
re-wrapped using a configured continuation indent. -/
def optLines (k v : String) : List String :=
  match vlines v with
  | [] => [k ++ " = "]
  | l0 :: rest => (k ++ " = " ++ l0) :: rest.map (fun l => "\t" ++ l)

/-- Serializer, section part: header, options in order, one closing blank line. -/
def sectLines (name : String) (opts : List (String × String)) : List String :=
  ("[" ++ name ++ "]") :: (opts.flatMap (fun p => optLines p.1 p.2) ++ [""])

/-- Serializer: Defaults Section first when non-empty, then regular sections
in their current order. -/
def writeLines (d : Document) : List String :=
  (if d.defaults.isEmpty then [] else sectLines "DEFAULT" d.defaults)
    ++ d.sections.flatMap (fun p => sectLines p.1 p.2)

/-- Serializer output as one text buffer. -/
def write_string (d : Document) : String := sjoin (writeLines d)

/-- Lookup family in which every name's value is a placeholder referencing
that same name: the archetypal interpolation cycle. -/
def selfRefLookup : String → Option String := fun n => some ("%(" ++ n ++ ")s")

/-- Well-formed option key for round-tripping through the serializer: a key
whose serialized line parses back to the same key (non-empty, whitespace- and
case-normalized, delimiter-free, and not mistakable for a header or comment). -/
@[reducible] def WFKey (k : String) : Prop :=
  k ≠ "" ∧ strim k = k ∧ optionxform k = k ∧
  (∀ c ∈ k.data, ¬(c = '=' ∨ c = ':' ∨ c = '\n')) ∧
  k.data.head? ≠ some '[' ∧ k.data.head? ≠ some '#' ∧ k.data.head? ≠ some ';'

/-- Well-formed raw value for round-tripping: each physical line carries no
leading/trailing whitespace, continuation lines do not look like comments,
and the value does not end in a blank line (the serializer's re-wrapping
would drop it). -/
@[reducible] def WFValue (v : String) : Prop :=
  (∀ l ∈ vlines v, strim l = l) ∧
  (∀ l ∈ (vlines v).tail, l.data.head? ≠ some '#' ∧ l.data.head? ≠ some ';') ∧
  (vlines v).tail.getLast? ≠ some ""

/-- Well-formed section name: printable inside `[` `]` and distinct from the
Defaults pseudo-section. -/
@[reducible] def WFSectName (n : String) : Prop :=
  ']' ∉ n.data ∧ '\n' ∉ n.data ∧ n ≠ "DEFAULT"

/-- Well-formed Document: every key, value and section name round-trips, and
sections/keys are duplicate-free. -/
@[reducible] def WFDoc (d : Document) : Prop :=
  (∀ p ∈ d.defaults, WFKey p.1 ∧ WFValue p.2) ∧
  (d.defaults.map Prod.fst).Nodup ∧
  (∀ q ∈ d.sections, WFSectName q.1 ∧
    (∀ p ∈ q.2, WFKey p.1 ∧ WFValue p.2) ∧ (q.2.map Prod.fst).Nodup) ∧
  (d.sections.map Prod.fst).Nodup

/-- Suffix contributed to an open value by a run of continuation lines, given
`b` already-buffered blank lines (trailing blanks contribute nothing). -/
def contrib (b : Nat) : List String → String
  | [] => ""
  | l :: rest => if l = "" then contrib (b + 1) rest else nlRep (b + 1) ++ l ++ contrib 0 rest

/-- Buffered blank count left after a run of continuation lines. -/
def tblanks (b : Nat) : List String → Nat
  | [] => b
  | l :: rest => if l = "" then tblanks (b + 1) rest else tblanks 0 rest

/-- The open-option state left by a run of serialized options. -/
def lastKey : List (String × String) → Option (String × Nat) → Option (String × Nat)
  | [], dflt => dflt
  | p :: rest, _ => lastKey rest (some (p.1, 0))

/-- The buffered-blank count left by a run of serialized options. -/
def lastBlanks : List (String × String) → Nat → Nat
  | [], b => b
  | _ :: rest, _ => lastBlanks rest 0

/-- Keys stored in a Document are all in normalized (lowercase) form. -/
@[reducible] def KeysNormalized (d : Document) : Prop :=
  (∀ p ∈ d.defaults, optionxform p.1 = p.1) ∧
  (∀ q ∈ d.sections, ∀ p ∈ q.2, optionxform p.1 = p.1)

/-- Parser-state invariant for the Defaults pseudo-section: it is never among
the regular section names, and it is never the current regular-section scope
(the Defaults scope is `none`). -/
def DefaultHidden (st : PState) : Prop :=
  "DEFAULT" ∉ sectionNames st.doc ∧ st.cur ≠ some "DEFAULT"

/-- Parser-state invariant for key normalization: every stored key and the
currently open option's key are in normalized (lowercase) form. -/
def StateKeysNorm (st : PState) : Prop :=
  KeysNormalized st.doc ∧ ∀ ki, st.curOpt = some ki → optionxform ki.1 = ki.1

end Config

deriving instance DecidableEq for Except

namespace Config

/-! ### Basic lemmas about the association lists and normalization -/

theorem toNat_ofNat_valid (n : Nat) (h : n.isValidChar) : (Char.ofNat n).toNat = n := by
  simp [Char.ofNat, h, Char.ofNatAux, Char.toNat, UInt32.toNat]

theorem charLower_idem (c : Char) : charLower (charLower c) = charLower c := by
  by_cases h : 65 ≤ c.toNat ∧ c.toNat ≤ 90
  · have hv : (c.toNat + 32).isValidChar := by
      left
      omega
    have ht : (Char.ofNat (c.toNat + 32)).toNat = c.toNat + 32 := toNat_ofNat_valid _ hv
    unfold charLower
    rw [if_pos h, if_neg]
    rw [ht]
    omega
  · unfold charLower
    rw [if_neg h, if_neg h]

theorem optionxform_idem (s : String) : optionxform (optionxform s) = optionxform s := by
  show (⟨(s.data.map charLower).map charLower⟩ : String) = ⟨s.data.map charLower⟩
  rw [List.map_map]
  rw [show charLower ∘ charLower = charLower from funext charLower_idem]

theorem alookup_aset_self {β : Type} (l : List (String × β)) (k : String) (v : β) :
    alookup (aset l k v) k = some v := by
  induction l with
  | nil => simp [aset, alookup]
  | cons p rest ih =>
    by_cases h : p.1 = k
    · simp [aset, h, alookup]
    · simp [aset, h, alookup, ih]

theorem alookup_aset_ne {β : Type} (l : List (String × β)) (k k' : String) (v : β)
    (h : k' ≠ k) : alookup (aset l k v) k' = alookup l k' := by
  have hkk : ¬ k = k' := fun he => h he.symm
  induction l with
  | nil => simp [aset, alookup, hkk]
  | cons p rest ih =>
    by_cases hp : p.1 = k
    · subst hp
      simp [aset, alookup, hkk]
    · simp only [aset, if_neg hp]
      by_cases hp' : p.1 = k'
      · simp [alookup, hp']
      · simp [alookup, hp', ih]

theorem aset_aset_self {β : Type} (l : List (String × β)) (k : String) (v w : β) :
    aset (aset l k v) k w = aset l k w := by
  induction l with
  | nil => simp [aset]
  | cons p rest ih =>
    by_cases h : p.1 = k
    · simp [aset, h]
    · simp [aset, h, ih]

theorem aset_fresh {β : Type} (l : List (String × β)) (k : String) (v : β)
    (h : alookup l k = none) : aset l k v = l ++ [(k, v)] := by
  induction l with
  | nil => simp [aset]
  | cons p rest ih =>
    by_cases hp : p.1 = k
    · simp [alookup, hp] at h
    · simp only [alookup, if_neg hp] at h
      simp [aset, hp, ih h]

theorem alookup_append {β : Type} (l1 l2 : List (String × β)) (k : String) :
    alookup (l1 ++ l2) k =
      match alookup l1 k with
      | some v => some v
      | none => alookup l2 k := by
  induction l1 with
  | nil => simp [alookup]
  | cons p rest ih =>
    by_cases hp : p.1 = k
    · simp [alookup, hp]
    · simp [alookup, hp, ih]

theorem varLookup_empty (d : Document) (s : String) (opts : List (String × String))
    (k : String) (hs : alookup d.sections s = some opts) :
    varLookup d s [] k =
      match alookup opts (optionxform k) with
      | some v => some v
      | none => alookup d.defaults (optionxform k) := by
  simp [varLookup, varsNorm, alookup, sectOpts, hs]

/-! ### C1: Defaults-provided values beat caller fallbacks -/

/-- C1: for a key absent from a section's own options but present in the
Defaults Section, `get` returns the Defaults-provided value (after
interpolation) whether or not a fallback is supplied; the fallback is
returned only when the key is absent from both the section and Defaults. -/
theorem defaults_beat_fallback (d : Document) (s k : String) (raw : Bool)
    (opts : List (String × String)) (dv : String) (f f' : Option String)
    (hs : alookup d.sections s = some opts)
    (hk : alookup opts (optionxform k) = none)
    (hd : alookup d.defaults (optionxform k) = some dv) :
    get d s k raw [] (.val f) = get d s k raw [] .unset ∧
    get d s k true [] (.val f) = .ok (some dv) ∧
    get d s k false [] (.val f) =
      (match interpolate (varLookup d s []) dv with
       | .ok r => .ok (some r)
       | .error e => .error (.interp e)) ∧
    (∀ k2, alookup opts (optionxform k2) = none →
      alookup d.defaults (optionxform k2) = none →
      get d s k2 raw [] (.val f') = .ok f') := by
  have hvl : varLookup d s [] k = some dv := by
    rw [varLookup_empty d s opts k hs, hk]
    exact hd
  refine ⟨?_, ?_, ?_, ?_⟩
  · simp [get, hvl, hs]
  · simp [get, hvl, hs]
  · simp [get, hvl, hs]
  · intro k2 hk2 hd2
    have hvl2 : varLookup d s [] k2 = none := by
      rw [varLookup_empty d s opts k2 hs, hk2]
      exact hd2
    simp [get, hvl2, hs]

/-- C1 witness: the notebook's `CompressionLevel` example — the Defaults
value 9 wins over the caller fallback 3. -/
theorem defaults_beat_fallback_witness :
    get ⟨[("compressionlevel", "9")], [("ts", [("port", "50022")])]⟩
      "ts" "CompressionLevel" false [] (.val (some "3")) = .ok (some "9") :=
  (defaults_beat_fallback ⟨[("compressionlevel", "9")], [("ts", [("port", "50022")])]⟩
    "ts" "CompressionLevel" false [("port", "50022")] "9" (some "3") (some "3")
    (by decide) (by decide) (by decide)).2.2.1.trans (by decide)

/-! ### C3: true absence signals "no such option" -/

/-- C3: when a key is absent from both the section and Defaults, a `get`
carrying no fallback — equivalently, one whose fallback is explicitly the
engine's absent marker — signals "no such option"; an explicit fallback value
(including the host null) is returned instead, and a missing section signals
"no such section". -/
theorem missing_option_signals (d : Document) (s k : String) (raw : Bool)
    (opts : List (String × String))
    (hs : alookup d.sections s = some opts)
    (hk : alookup opts (optionxform k) = none)
    (hd : alookup d.defaults (optionxform k) = none) :
    get d s k raw [] .unset = .error (.noOption s k) ∧
    (∀ v, get d s k raw [] (.val v) = .ok v) ∧
    (∀ s2, s2 ≠ "DEFAULT" → alookup d.sections s2 = none →
      get d s2 k raw [] .unset = .error (.noSection s2)) := by
  have hvl : varLookup d s [] k = none := by
    rw [varLookup_empty d s opts k hs, hk]
    exact hd
  refine ⟨?_, ?_, ?_⟩
  · simp [get, hvl, hs]
  · intro v
    simp [get, hvl, hs]
  · intro s2 hs2 hns
    simp [get, hs2, hns]

/-! ### C2: interpolation precedence and the ephemeral override map -/

theorem interpStep_name_scan (lk : String → Option String)
    (rec : List Char → Except InterpErr (List Char)) (nd : List Char) :
    ∀ acc rest, (∀ c ∈ nd, c ≠ ')') →
    interpStep lk rec (.name acc) (nd ++ rest) =
      interpStep lk rec (.name (nd.reverse ++ acc)) rest := by
  induction nd with
  | nil => intro acc rest _; simp
  | cons c nd ih =>
    intro acc rest h
    have hc : ¬ c = ')' := h c (by simp)
    rw [List.cons_append]
    rw [interpStep]
    rw [if_neg hc]
    rw [ih (c :: acc) rest (fun c' hc' => h c' (by simp [hc']))]
    simp

theorem interpStep_no_pct (lk : String → Option String)
    (rec : List Char → Except InterpErr (List Char)) (cs : List Char)
    (h : '%' ∉ cs) : interpStep lk rec .top cs = .ok cs := by
  induction cs with
  | nil => rfl
  | cons c cs ih =>
    have hc : ¬ c = '%' := fun he => h (by simp [he])
    rw [interpStep]
    rw [if_neg hc]
    rw [ih (fun hm => h (by simp [hm]))]
    rfl

theorem interpStep_placeholder (lk : String → Option String)
    (rec : List Char → Except InterpErr (List Char)) (n w : String) (rest' : List Char)
    (hn : ∀ c ∈ n.data, c ≠ ')') (hlk : lk n = some w)
    (hw : '%' ∉ w.data) :
    interpStep lk rec .top ('%' :: '(' :: (n.data ++ (')' :: 's' :: rest'))) =
      (interpStep lk rec .top rest').map (fun r => w.data ++ r) := by
  rw [interpStep, if_pos rfl]
  rw [interpStep, if_neg (by decide), if_pos rfl]
  rw [interpStep_name_scan lk rec n.data [] (')' :: 's' :: rest') hn]
  rw [interpStep, if_pos rfl]
  rw [interpStep, if_pos rfl]
  have hname : (⟨(n.data.reverse ++ []).reverse⟩ : String) = n := by
    simp
  rw [hname, hlk]
  simp [hw]

theorem interpolate_placeholder (lk : String → Option String) (n w : String)
    (hn : ∀ c ∈ n.data, c ≠ ')') (hlk : lk n = some w)
    (hw : '%' ∉ w.data) :
    interpolate lk ("%(" ++ n ++ ")s") = .ok w := by
  have hdata : ("%(" ++ n ++ ")s").data = '%' :: '(' :: (n.data ++ (')' :: 's' :: [])) := by
    simp
  have hstep : interpAt lk MAX_INTERPOLATION_DEPTH ("%(" ++ n ++ ")s").data =
      interpStep lk (interpAt lk 9) .top ("%(" ++ n ++ ")s").data := rfl
  unfold interpolate
  rw [hstep, hdata, interpStep_placeholder lk _ n w [] hn hlk hw]
  rw [interpStep_no_pct lk _ [] (by simp)]
  simp [Except.map]

/-- C2: with interpolation enabled, a placeholder name resolves by precedence
override map, then the section's own stored value, then Defaults; the map
affects only the single read that supplies it, so a read without the map
resolves from stored values only. -/
theorem override_precedence (d : Document) (s k n : String)
    (vars : List (String × String)) (opts : List (String × String))
    (hs : alookup d.sections s = some opts)
    (hk0 : alookup (varsNorm vars) (optionxform k) = none)
    (hk : alookup opts (optionxform k) = some ("%(" ++ n ++ ")s"))
    (hn : ∀ c ∈ n.data, c ≠ ')') :
    (∀ w, '%' ∉ w.data →
      alookup (varsNorm vars) (optionxform n) = some w →
      get d s k false vars .unset = .ok (some w)) ∧
    (∀ w, '%' ∉ w.data →
      alookup (varsNorm vars) (optionxform n) = none →
      alookup opts (optionxform n) = some w →
      get d s k false vars .unset = .ok (some w)) ∧
    (∀ w, '%' ∉ w.data →
      alookup (varsNorm vars) (optionxform n) = none →
      alookup opts (optionxform n) = none →
      alookup d.defaults (optionxform n) = some w →
      get d s k false vars .unset = .ok (some w)) ∧
    (∀ w, '%' ∉ w.data →
      alookup opts (optionxform n) = some w →
      get d s k false [] .unset = .ok (some w)) := by
  have hvl : varLookup d s vars k = some ("%(" ++ n ++ ")s") := by
    simp [varLookup, sectOpts, hs, hk0, hk]
  have hvl0 : varLookup d s [] k = some ("%(" ++ n ++ ")s") := by
    rw [varLookup_empty d s opts k hs, hk]
  refine ⟨?_, ?_, ?_, ?_⟩
  · intro w hw hv
    have hres : varLookup d s vars n = some w := by
      simp [varLookup, hv]
    simp [get, hs, hvl, interpolate_placeholder (varLookup d s vars) n w hn hres hw]
  · intro w hw hv ho
    have hres : varLookup d s vars n = some w := by
      simp [varLookup, sectOpts, hs, hv, ho]
    simp [get, hs, hvl, interpolate_placeholder (varLookup d s vars) n w hn hres hw]
  · intro w hw hv ho hd
    have hres : varLookup d s vars n = some w := by
      simp [varLookup, sectOpts, hs, hv, ho, hd]
    simp [get, hs, hvl, interpolate_placeholder (varLookup d s vars) n w hn hres hw]
  · intro w hw ho
    have hres : varLookup d s [] n = some w := by
      rw [varLookup_empty d s opts n hs, ho]
    simp [get, hs, hvl0, interpolate_placeholder (varLookup d s []) n w hn hres hw]

/-- C2 witness: with stored `foo = %(bar)s`, an override for `bar` wins for
that read only; without the map the stored `bar` is used. -/
theorem override_precedence_witness :
    get ⟨[("bar", "Life")], [("S", [("foo", "%(bar)s"), ("bar", "Python")])]⟩
      "S" "foo" false [("bar", "Documentation")] .unset = .ok (some "Documentation") ∧
    get ⟨[("bar", "Life")], [("S", [("foo", "%(bar)s"), ("bar", "Python")])]⟩
      "S" "foo" false [] .unset = .ok (some "Python") :=
  ⟨(override_precedence ⟨[("bar", "Life")], [("S", [("foo", "%(bar)s"), ("bar", "Python")])]⟩
      "S" "foo" "bar" [("bar", "Documentation")] [("foo", "%(bar)s"), ("bar", "Python")]
      (by decide) (by decide) (by decide) (by decide)).1 "Documentation" (by decide) (by decide),
   (override_precedence ⟨[("bar", "Life")], [("S", [("foo", "%(bar)s"), ("bar", "Python")])]⟩
      "S" "foo" "bar" [("bar", "Documentation")] [("foo", "%(bar)s"), ("bar", "Python")]
      (by decide) (by decide) (by decide) (by decide)).2.2.2 "Python" (by decide) (by decide)⟩

/-- C3 witness: the notebook's `monster` example — no fallback raises
"no such option", `fallback=None` returns the null value. -/
theorem missing_option_signals_witness :
    get ⟨[], [("Section1", [("foo", "fun")])]⟩ "Section1" "monster" true [] .unset
      = .error (.noOption "Section1" "monster") ∧
    get ⟨[], [("Section1", [("foo", "fun")])]⟩ "Section1" "monster" true [] (.val none)
      = .ok none :=
  ⟨(missing_option_signals ⟨[], [("Section1", [("foo", "fun")])]⟩ "Section1" "monster"
      true [("foo", "fun")] (by decide) (by decide) (by decide)).1,
   (missing_option_signals ⟨[], [("Section1", [("foo", "fun")])]⟩ "Section1" "monster"
      true [("foo", "fun")] (by decide) (by decide) (by decide)).2.1 none⟩

/-! ### C5: boolean parsing -/

/-- C5: boolean parsing is case-insensitive and recognizes exactly
true/yes/on/1 as true and false/no/off/0 as false; every other string signals
"not a boolean"; `getboolean` applies this parsing to the resolved string
(shown here on a raw read), so e.g. "Yes" yields true, "0" false, "On" true,
"false" false, and "maybe" errors. -/
theorem boolean_parsing (v : String) :
    (parseBool v = .ok true ↔ optionxform v ∈ (["1", "yes", "true", "on"] : List String)) ∧
    (parseBool v = .ok false ↔ optionxform v ∈ (["0", "no", "false", "off"] : List String)) ∧
    (parseBool v = .error (.notABool v) ↔
      optionxform v ∉ (["1", "yes", "true", "on", "0", "no", "false", "off"] : List String)) ∧
    getboolean ⟨[], [("S", [("k", v)])]⟩ "S" "k" true [] .unset =
      (match parseBool v with
       | .ok b => .ok (some b)
       | .error e => .error e) ∧
    getboolean ⟨[], [("S", [("k", "Yes")])]⟩ "S" "k" false [] .unset = .ok (some true) ∧
    getboolean ⟨[], [("S", [("k", "0")])]⟩ "S" "k" false [] .unset = .ok (some false) ∧
    getboolean ⟨[], [("S", [("k", "On")])]⟩ "S" "k" false [] .unset = .ok (some true) ∧
    getboolean ⟨[], [("S", [("k", "false")])]⟩ "S" "k" false [] .unset = .ok (some false) ∧
    getboolean ⟨[], [("S", [("k", "maybe")])]⟩ "S" "k" false [] .unset
      = .error (.notABool "maybe") := by
  have hxk : optionxform "k" = "k" := by decide
  refine ⟨?_, ?_, ?_, ?_, by decide, by decide, by decide, by decide, by decide⟩
  · simp only [parseBool]
    generalize optionxform v = x
    simp [BOOLEAN_STATES, alookup]
    split_ifs <;> subst_vars <;> simp_all <;>
      ((repeat' apply And.intro) <;> (intro h; subst h; simp_all))
  · simp only [parseBool]
    generalize optionxform v = x
    simp [BOOLEAN_STATES, alookup]
    split_ifs <;> subst_vars <;> simp_all <;>
      ((repeat' apply And.intro) <;> (intro h; subst h; simp_all))
  · simp only [parseBool]
    generalize optionxform v = x
    simp [BOOLEAN_STATES, alookup]
    split_ifs <;> subst_vars <;> simp_all <;>
      ((repeat' apply And.intro) <;> (intro h; subst h; simp_all))
  · simp [getboolean, get, varLookup, varsNorm, sectOpts, alookup, hxk]

/-! ### C7: interpolation depth is bounded -/

/-- C7: a value whose placeholder chain never terminates — here the family in
which every name resolves to a placeholder for itself — makes resolution
signal "interpolation depth exceeded" at every depth budget rather than loop;
in particular a key `a` storing `%(a)s` does so through `get`. -/
theorem interp_depth_exceeded (name : String) (hn : ∀ c ∈ name.data, c ≠ ')') :
    (∀ d, interpAt selfRefLookup d ("%(" ++ name ++ ")s").data = .error .depthExceeded) ∧
    get ⟨[], [("s", [("a", "%(a)s")])]⟩ "s" "a" false [] .unset
      = .error (.interp .depthExceeded) := by
  constructor
  · intro d
    induction d with
    | zero => rfl
    | succ d ih =>
      have hdata : ("%(" ++ name ++ ")s").data
          = '%' :: '(' :: (name.data ++ (')' :: 's' :: [])) := by
        simp
      have hstep : interpAt selfRefLookup (d + 1) ("%(" ++ name ++ ")s").data
          = interpStep selfRefLookup (interpAt selfRefLookup d) .top
              ("%(" ++ name ++ ")s").data := rfl
      rw [hstep]
      conv_lhs => rw [hdata]
      rw [interpStep, if_pos rfl]
      rw [interpStep, if_neg (by decide), if_pos rfl]
      rw [interpStep_name_scan _ _ name.data [] _ hn]
      rw [interpStep, if_pos rfl]
      rw [interpStep, if_pos rfl]
      have hname : (⟨(name.data.reverse ++ []).reverse⟩ : String) = name := by
        simp
      rw [hname]
      simp only [selfRefLookup]
      rw [ih]
      have hpct : ('%' ∈ ("%(" ++ name ++ ")s").data) := by
        rw [hdata]
        simp
      simp [hpct]
  · decide

/-- C7 witness: the self-referential key at the spec's example shape. -/
theorem interp_depth_exceeded_witness :
    interpAt selfRefLookup 3 ("%(" ++ "a" ++ ")s").data = .error .depthExceeded ∧
    get ⟨[], [("s", [("a", "%(a)s")])]⟩ "s" "a" false [] .unset
      = .error (.interp .depthExceeded) :=
  ⟨(interp_depth_exceeded "a" (by decide)).1 3, (interp_depth_exceeded "a" (by decide)).2⟩

/-! ### C10: read_dict stringifies values -/

theorem itemGet_storeKV_self (d : Document) (s k v : String) (hs : s ≠ "DEFAULT") :
    itemGet (storeKV d (some s) (optionxform k) v) s k = some v := by
  simp only [itemGet, storeKV, if_neg hs, alookup_aset_self]

/-- C10: merging a pre-structured mapping stores the string form of each
value, so a non-string value (e.g. the integer 21212) is read back as its
string form ('21212'); the Document only ever holds strings. -/
theorem read_dict_stringifies (d : Document) (s k : String) (hs : s ≠ "DEFAULT") :
    (∀ pv : PyVal, itemGet (read_dict d [(s, [(k, pv)])]) s k = some pv.toStr) ∧
    (∀ n : Int, itemGet (read_dict d [(s, [(k, PyVal.int n)])]) s k = some (toString n)) ∧
    itemGet (read_dict ⟨[], [("topsecret.server.example", [("port", "50022")])]⟩
        [("topsecret.server.example", [("Port", PyVal.int 21212)])])
      "topsecret.server.example" "Port" = some "21212" := by
  have hgen : ∀ pv : PyVal, itemGet (read_dict d [(s, [(k, pv)])]) s k = some pv.toStr := by
    intro pv
    have hrd : read_dict d [(s, [(k, pv)])]
        = storeKV (ensureSection d s) (some s) (optionxform k) pv.toStr := by
      simp [read_dict, hs]
    rw [hrd, itemGet_storeKV_self _ _ _ _ hs]
  exact ⟨hgen, fun n => hgen (PyVal.int n), by decide⟩

/-- C10 witness: the notebook's example — the integer 21212 merged via a
pre-structured mapping reads back as the string '21212'. -/
theorem read_dict_stringifies_witness :
    itemGet (read_dict ⟨[], [("ts", [("port", "48484")])]⟩
        [("ts", [("Port", PyVal.int 21212)])]) "ts" "Port" = some "21212" :=
  ((read_dict_stringifies ⟨[], [("ts", [("port", "48484")])]⟩ "ts" "Port"
      (by decide)).1 (PyVal.int 21212)).trans (by decide)

/-! ### Whitespace-trimming lemmas -/

theorem length_dropWhile_le' {α : Type} (p : α → Bool) (l : List α) :
    (l.dropWhile p).length ≤ l.length :=
  (List.dropWhile_suffix p).sublist.length_le

theorem length_trimChars_le (cs : List Char) : (trimChars cs).length ≤ cs.length := by
  unfold trimChars
  calc ((cs.dropWhile isWsC).reverse.dropWhile isWsC).reverse.length
      = ((cs.dropWhile isWsC).reverse.dropWhile isWsC).length := by simp
    _ ≤ (cs.dropWhile isWsC).reverse.length := length_dropWhile_le' _ _
    _ = (cs.dropWhile isWsC).length := by simp
    _ ≤ cs.length := length_dropWhile_le' _ _

theorem dropWhile_eq_self_of_trim (cs : List Char) (h : trimChars cs = cs) :
    cs.dropWhile isWsC = cs ∧ cs.reverse.dropWhile isWsC = cs.reverse := by
  have hlen : (trimChars cs).length = cs.length := by rw [h]
  have h1 : (cs.dropWhile isWsC).length = cs.length := by
    have ha : (trimChars cs).length ≤ (cs.dropWhile isWsC).length := by
      unfold trimChars
      calc ((cs.dropWhile isWsC).reverse.dropWhile isWsC).reverse.length
          = ((cs.dropWhile isWsC).reverse.dropWhile isWsC).length := by simp
        _ ≤ (cs.dropWhile isWsC).reverse.length := length_dropWhile_le' _ _
        _ = (cs.dropWhile isWsC).length := by simp
    have hb : (cs.dropWhile isWsC).length ≤ cs.length := length_dropWhile_le' _ _
    omega
  have hfront : cs.dropWhile isWsC = cs :=
    (List.dropWhile_suffix isWsC).sublist.eq_of_length h1
  refine ⟨hfront, ?_⟩
  have h2 : (cs.reverse.dropWhile isWsC).length = cs.reverse.length := by
    have ha : (trimChars cs).length = (cs.reverse.dropWhile isWsC).length := by
      unfold trimChars
      rw [hfront]
      simp
    have hb : (cs.reverse.dropWhile isWsC).length ≤ cs.reverse.length :=
      length_dropWhile_le' _ _
    simp only [List.length_reverse] at hb ⊢
    omega
  exact (List.dropWhile_suffix isWsC).sublist.eq_of_length h2

theorem head_not_ws_of_trim (cs : List Char) (h : trimChars cs = cs) :
    ∀ c, cs.head? = some c → isWsC c = false := by
  intro c hc
  have hfront := (dropWhile_eq_self_of_trim cs h).1
  rcases cs with _ | ⟨c0, cs0⟩
  · simp at hc
  · simp only [List.head?_cons, Option.some.injEq] at hc
    subst hc
    rw [List.dropWhile_cons] at hfront
    by_contra hws
    simp only [Bool.not_eq_false] at hws
    rw [if_pos hws] at hfront
    have := length_dropWhile_le' isWsC cs0
    have : (List.dropWhile isWsC cs0).length = cs0.length + 1 := by rw [hfront]; simp
    omega

theorem last_not_ws_of_trim (cs : List Char) (h : trimChars cs = cs) :
    ∀ c, cs.getLast? = some c → isWsC c = false := by
  intro c hc
  have hback := (dropWhile_eq_self_of_trim cs h).2
  rw [← List.head?_reverse] at hc
  rcases hr : cs.reverse with _ | ⟨c0, cs0⟩
  · rw [hr] at hc
    simp at hc
  · rw [hr] at hc hback
    simp only [List.head?_cons, Option.some.injEq] at hc
    subst hc
    rw [List.dropWhile_cons] at hback
    by_contra hws
    simp only [Bool.not_eq_false] at hws
    rw [if_pos hws] at hback
    have := length_dropWhile_le' isWsC cs0
    have : (List.dropWhile isWsC cs0).length = cs0.length + 1 := by rw [hback]; simp
    omega

theorem trimChars_eq_self (cs : List Char)
    (h1 : ∀ c, cs.head? = some c → isWsC c = false)
    (h2 : ∀ c, cs.getLast? = some c → isWsC c = false) : trimChars cs = cs := by
  rcases cs with _ | ⟨c0, cs0⟩
  · rfl
  · unfold trimChars
    rw [List.dropWhile_cons, if_neg (by simp [h1 c0 rfl])]
    rcases hr : (c0 :: cs0).reverse with _ | ⟨e, es⟩
    · exact absurd (congrArg List.length hr) (by simp)
    · have he : isWsC e = false := by
        apply h2
        rw [← List.head?_reverse, hr]
        rfl
      rw [List.dropWhile_cons]
      rw [if_neg (by simp [he])]
      rw [← hr]
      simp

theorem strim_eq_self_iff_aux (s : String) (h : strim s = s) :
    (∀ c, s.data.head? = some c → isWsC c = false) ∧
    (∀ c, s.data.getLast? = some c → isWsC c = false) := by
  have hd : trimChars s.data = s.data := congrArg String.data h
  exact ⟨head_not_ws_of_trim _ hd, last_not_ws_of_trim _ hd⟩

/-! ### Line-shape lemmas for the parser -/

theorem dropWhile_cons_neg {α : Type} (p : α → Bool) (c : α) (l : List α)
    (h : p c = false) : List.dropWhile p (c :: l) = c :: l := by
  rw [List.dropWhile_cons, if_neg (by simp [h])]

theorem trimChars_cons_ws (c : Char) (hc : isWsC c = true) (cs : List Char) :
    trimChars (c :: cs) = trimChars cs := by
  unfold trimChars
  rw [List.dropWhile_cons, if_pos hc]

theorem strim_tab_pad (l : String) (hl : strim l = l) : strim ⟨'\t' :: l.data⟩ = l := by
  show (⟨trimChars ('\t' :: l.data)⟩ : String) = l
  rw [trimChars_cons_ws '\t' (by decide)]
  exact hl

theorem data_tab_pad (l : String) : ("\t" ++ l).data = '\t' :: l.data := by
  simp

theorem indentOf_tab_pad (l : String) : 1 ≤ indentOf ("\t" ++ l) := by
  simp only [indentOf, data_tab_pad]
  rw [List.takeWhile_cons, if_pos (by decide)]
  simp

theorem indentOf_head_not_ws (line : String) (c : Char)
    (hc : line.data.head? = some c) (h : isWsC c = false) : indentOf line = 0 := by
  rcases hd : line.data with _ | ⟨c0, rest⟩
  · simp [indentOf, hd]
  · rw [hd] at hc
    simp only [List.head?_cons, Option.some.injEq] at hc
    subst hc
    simp only [indentOf, hd]
    rw [List.takeWhile_cons, if_neg (by simp [h])]
    rfl

theorem parseHeader_mk (name : String) (h : ']' ∉ name.data) :
    parseHeader ('[' :: (name.data ++ [']'])) = some name := by
  rw [parseHeader]
  rw [if_pos ⟨rfl, List.getLast?_concat _⟩]
  rw [List.dropLast_concat]
  rw [if_neg (by simp [h])]

theorem splitDelim_key (kcs : List Char) (h : ∀ c ∈ kcs, ¬(c = '=' ∨ c = ':'))
    (rest : List Char) :
    splitDelim (kcs ++ '=' :: rest) = some (kcs, rest) := by
  induction kcs with
  | nil => simp [splitDelim]
  | cons c kcs ih =>
    rw [List.cons_append, splitDelim, if_neg (h c (by simp))]
    rw [ih (fun c' hc' => h c' (by simp [hc']))]
    rfl

theorem header_line_data (name : String) :
    ("[" ++ name ++ "]").data = '[' :: (name.data ++ [']']) := by
  simp

theorem data_ne_nil_of_ne_empty (s : String) (h : s ≠ "") : s.data ≠ [] := by
  intro hd
  apply h
  cases s
  simp_all

theorem strim_space_pad (l : String) (hl : strim l = l) : strim ⟨' ' :: l.data⟩ = l := by
  show (⟨trimChars (' ' :: l.data)⟩ : String) = l
  rw [trimChars_cons_ws ' ' (by decide)]
  exact hl

theorem strim_key_pad (k : String) (hne : k ≠ "") (htr : strim k = k) :
    strim ⟨k.data ++ [' ']⟩ = k := by
  obtain ⟨hhd, hlst⟩ := strim_eq_self_iff_aux k htr
  have hdn : k.data ≠ [] := data_ne_nil_of_ne_empty k hne
  show (⟨trimChars (k.data ++ [' '])⟩ : String) = k
  unfold trimChars
  rcases hd : k.data with _ | ⟨c, kd⟩
  · exact absurd hd hdn
  · have hc : isWsC c = false := hhd c (by rw [hd]; rfl)
    rw [List.cons_append, dropWhile_cons_neg _ _ _ hc, ← List.cons_append, ← hd]
    rw [List.reverse_append]
    show (⟨(List.dropWhile isWsC (' ' :: k.data.reverse)).reverse⟩ : String) = k
    rw [List.dropWhile_cons, if_pos (by decide)]
    rcases hr : k.data.reverse with _ | ⟨e, es⟩
    · exact absurd (by simpa using congrArg List.length hr) (fun hlen => hdn (List.length_eq_zero.mp hlen))
    · have he : isWsC e = false := by
        apply hlst
        rw [← List.head?_reverse, hr]
        rfl
      rw [List.dropWhile_cons, if_neg (by simp [he]), ← hr]
      simp

theorem strim_header_line (name : String) (hnl : '\n' ∉ name.data) :
    strim ("[" ++ name ++ "]") = ("[" ++ name ++ "]") := by
  show (⟨trimChars ("[" ++ name ++ "]").data⟩ : String) = "[" ++ name ++ "]"
  rw [header_line_data]
  rw [trimChars_eq_self]
  · rfl
  · intro c hc
    simp only [List.head?_cons, Option.some.injEq] at hc
    subst hc
    decide
  · intro c hc
    rw [show ('[' :: (name.data ++ [']'])) = ('[' :: name.data) ++ [']'] from rfl] at hc
    rw [List.getLast?_concat] at hc
    injection hc with hc
    subst hc
    decide

/-! ### Parser step lemmas -/

theorem pfold_append (xs ys : List String) : ∀ st : PState,
    pfold (xs ++ ys) st =
      match pfold xs st with
      | .ok st' => pfold ys st'
      | .error e => .error e := by
  induction xs with
  | nil => intro st; rfl
  | cons l ls ih =>
    intro st
    rw [List.cons_append, pfold, pfold]
    rcases pstep st l with e | st'
    · rfl
    · exact ih st'

theorem pstep_blank (st : PState) (line : String) (h : strim line = "") :
    pstep st line =
      .ok (if st.curOpt.isSome then { st with blanks := st.blanks + 1 } else st) := by
  simp only [pstep, h]
  rfl

theorem classify_header (st : PState) (line : String) (name : String)
    (h1 : ']' ∉ name.data) (hdef : name ≠ "DEFAULT") (hseen : name ∉ st.seen) :
    classify st line ("[" ++ name ++ "]") =
      .ok { st with doc := ensureSection st.doc name, cur := some name,
                    seen := name :: st.seen, curOpt := none } := by
  simp only [classify, header_line_data, parseHeader_mk name h1]
  rw [if_neg hdef]
  rw [if_neg (by simp [hseen])]

theorem classify_header_default (st : PState) (line : String) :
    classify st line "[DEFAULT]" = .ok { st with cur := none, curOpt := none } := by
  have hph : parseHeader ("[DEFAULT]").data = some "DEFAULT" := by decide
  simp only [classify, hph]
  rfl

theorem classify_kv (st : PState) (line t : String) (k v0 : String) (vtail : List Char)
    (hk : WFKey k)
    (ht : t.data = (k.data ++ [' ']) ++ '=' :: vtail)
    (hvt : strim ⟨vtail⟩ = v0) :
    classify st line t =
      .ok { st with doc := storeKV st.doc st.cur k v0,
                    curOpt := some (k, indentOf line) } := by
  obtain ⟨hne, htr, hxf, hdel, hh1, hh2, hh3⟩ := hk
  have hdn : k.data ≠ [] := data_ne_nil_of_ne_empty k hne
  rcases hd : k.data with _ | ⟨c, kd⟩
  · exact absurd hd hdn
  · have hthead : t.data.head? = some c := by
      rw [ht, hd]
      rfl
    have hcnb : c ≠ '[' := by
      intro he
      rw [hd, he] at hh1
      exact hh1 rfl
    have hph : parseHeader t.data = none := by
      rcases htd : t.data with _ | ⟨c', rest⟩
      · rfl
      · have : c' = c := by
          rw [htd] at hthead
          simpa using hthead
        subst this
        rw [parseHeader]
        rw [if_neg (fun hand => hcnb hand.1)]
    have hsd : splitDelim t.data = some (k.data ++ [' '], vtail) := by
      rw [ht]
      apply splitDelim_key
      intro c' hc'
      rcases List.mem_append.mp hc' with hmem | hmem
      · have := hdel c' hmem
        intro hor
        rcases hor with h' | h'
        · exact this (Or.inl h')
        · exact this (Or.inr (Or.inl h'))
      · simp at hmem
        subst hmem
        decide
    simp only [classify, hph]
    rw [if_neg (by rw [hthead]; simp [hcnb])]
    simp only [hsd]
    rw [strim_key_pad k hne htr, hxf]
    rw [if_neg hne]
    rw [hvt]

theorem pstep_to_classify (st : PState) (line t : String)
    (hts : strim line = t) (htne : t ≠ "") (hcmt : isCommentLine t = false)
    (hind : indentOf line = 0) :
    pstep st line = classify { st with curOpt := none, blanks := 0 } line t := by
  obtain ⟨d0, cur0, co0, b0, seen0⟩ := st
  simp only [pstep, hts]
  rw [if_neg htne]
  rw [if_neg (by simp [hcmt])]
  rcases co0 with _ | ki
  · rfl
  · rw [hind]
    simp only [Nat.not_lt_zero, if_false]

theorem pstep_header (st : PState) (name : String) (h1 : ']' ∉ name.data)
    (hnl : '\n' ∉ name.data) (hdef : name ≠ "DEFAULT") (hseen : name ∉ st.seen) :
    pstep st ("[" ++ name ++ "]") =
      .ok ⟨ensureSection st.doc name, some name, none, 0, name :: st.seen⟩ := by
  rw [pstep_to_classify st _ _ (strim_header_line name hnl)
    (by
      intro h
      have := congrArg String.data h
      rw [header_line_data] at this
      simp at this)
    (by
      simp [isCommentLine, header_line_data])
    (indentOf_head_not_ws _ '[' (by rw [header_line_data]; rfl) (by decide))]
  rw [classify_header _ _ name h1 hdef (by simpa using hseen)]

theorem pstep_header_default (st : PState) :
    pstep st "[DEFAULT]" = .ok ⟨st.doc, none, none, 0, st.seen⟩ := by
  rw [pstep_to_classify st _ "[DEFAULT]" (by decide) (by decide) (by decide) (by decide)]
  rw [classify_header_default]

theorem strim_kv_empty (k : String) (hne : k ≠ "") (htr : strim k = k) :
    strim (k ++ " = " ++ "") = ⟨k.data ++ [' ', '=']⟩ := by
  obtain ⟨hhd, hlst⟩ := strim_eq_self_iff_aux k htr
  have hdn : k.data ≠ [] := data_ne_nil_of_ne_empty k hne
  have hdata : (k ++ " = " ++ "").data = k.data ++ [' ', '=', ' '] := by
    simp
  show (⟨trimChars (k ++ " = " ++ "").data⟩ : String) = ⟨k.data ++ [' ', '=']⟩
  rw [hdata]
  unfold trimChars
  rcases hd : k.data with _ | ⟨c, kd⟩
  · exact absurd hd hdn
  · have hc : isWsC c = false := hhd c (by rw [hd]; rfl)
    rw [List.cons_append, dropWhile_cons_neg _ _ _ hc, ← List.cons_append, ← hd]
    rw [List.reverse_append]
    show (⟨(List.dropWhile isWsC (([' ', '=', ' '] : List Char).reverse
      ++ k.data.reverse)).reverse⟩ : String) = ⟨k.data ++ [' ', '=']⟩
    rw [show ((([' ', '=', ' '] : List Char).reverse ++ k.data.reverse))
      = ' ' :: '=' :: ' ' :: k.data.reverse from rfl]
    rw [List.dropWhile_cons, if_pos (by decide)]
    rw [List.dropWhile_cons, if_neg (by decide)]
    show (⟨('=' :: ' ' :: k.data.reverse).reverse⟩ : String) = ⟨k.data ++ [' ', '=']⟩
    simp

theorem kv_line_data (k v0 : String) :
    (k ++ " = " ++ v0).data = k.data ++ (' ' :: '=' :: ' ' :: v0.data) := by
  simp

theorem pstep_kv (st : PState) (k v0 : String) (hk : WFKey k) (hv0 : strim v0 = v0) :
    pstep st (k ++ " = " ++ v0) =
      .ok ⟨storeKV st.doc st.cur k v0, st.cur, some (k, 0), 0, st.seen⟩ := by
  obtain ⟨hne, htr, hxf, hdel, hh1, hh2, hh3⟩ := hk
  obtain ⟨hhd, hlst⟩ := strim_eq_self_iff_aux k htr
  have hdn : k.data ≠ [] := data_ne_nil_of_ne_empty k hne
  rcases hd : k.data with _ | ⟨c, kd⟩
  · exact absurd hd hdn
  have hc : isWsC c = false := hhd c (by rw [hd]; rfl)
  have hlhead : (k ++ " = " ++ v0).data.head? = some c := by
    rw [kv_line_data, hd]
    rfl
  have hind : indentOf (k ++ " = " ++ v0) = 0 :=
    indentOf_head_not_ws _ c hlhead hc
  have hkhead : k.data.head? = some c := by rw [hd]; rfl
  have hccmt : (c == '#' || c == ';') = false := by
    have h2 : c ≠ '#' := by
      intro he
      rw [hkhead, he] at hh2
      exact hh2 rfl
    have h3 : c ≠ ';' := by
      intro he
      rw [hkhead, he] at hh3
      exact hh3 rfl
    simp [h2, h3]
  by_cases hv : v0 = ""
  · subst hv
    have hts : strim (k ++ " = " ++ "") = ⟨k.data ++ [' ', '=']⟩ :=
      strim_kv_empty k hne htr
    rw [pstep_to_classify st _ _ hts
      (by
        intro h
        have := congrArg String.data h
        rw [hd] at this
        simp at this)
      (by
        simp only [isCommentLine, hd]
        exact hccmt)
      hind]
    rw [classify_kv _ _ _ k "" []
      ⟨hne, htr, hxf, hdel, hh1, hh2, hh3⟩
      (by
        show k.data ++ [' ', '='] = (k.data ++ [' ']) ++ '=' :: []
        simp)
      rfl]
    rw [hind]
  · have hvdn : v0.data ≠ [] := data_ne_nil_of_ne_empty v0 hv
    obtain ⟨hvhd, hvlst⟩ := strim_eq_self_iff_aux v0 hv0
    have htrim : trimChars (k.data ++ (' ' :: '=' :: ' ' :: v0.data))
        = k.data ++ (' ' :: '=' :: ' ' :: v0.data) := by
      apply trimChars_eq_self
      · intro c' hc'
        rw [List.head?_append_of_ne_nil _ hdn, hkhead] at hc'
        injection hc' with hc'
        subst hc'
        exact hc
      · intro c' hc'
        rw [List.getLast?_append_of_ne_nil _ (by simp)] at hc'
        rw [show (' ' :: '=' :: ' ' :: v0.data) = [' ', '=', ' '] ++ v0.data from rfl,
          List.getLast?_append_of_ne_nil _ hvdn] at hc'
        exact hvlst c' hc'
    have hts : strim (k ++ " = " ++ v0) = (k ++ " = " ++ v0) := by
      show (⟨trimChars (k ++ " = " ++ v0).data⟩ : String) = k ++ " = " ++ v0
      rw [kv_line_data, htrim, ← kv_line_data]
    rw [pstep_to_classify st _ _ hts
      (by
        intro h
        have := congrArg String.data h
        rw [kv_line_data, hd] at this
        simp at this)
      (by
        simp only [isCommentLine, kv_line_data, hd]
        exact hccmt)
      hind]
    rw [classify_kv _ _ _ k v0 (' ' :: v0.data)
      ⟨hne, htr, hxf, hdel, hh1, hh2, hh3⟩
      (by
        rw [kv_line_data]
        simp)
      (strim_space_pad v0 hv0)]
    rw [hind]

theorem pstep_cont (st : PState) (k : String) (hcur : st.curOpt = some (k, 0))
    (l : String) (hl : strim l = l) (hne : l ≠ "")
    (hh2 : l.data.head? ≠ some '#') (hh3 : l.data.head? ≠ some ';') :
    pstep st ("\t" ++ l) =
      .ok { st with doc := appendFrag st.doc st.cur k st.blanks l, blanks := 0 } := by
  have hts : strim ("\t" ++ l) = l := by
    show (⟨trimChars ("\t" ++ l).data⟩ : String) = l
    rw [data_tab_pad]
    rw [trimChars_cons_ws '\t' (by decide)]
    exact hl
  have hdn : l.data ≠ [] := data_ne_nil_of_ne_empty l hne
  rcases hdl : l.data with _ | ⟨c, ld⟩
  · exact absurd hdl hdn
  have hcmt : isCommentLine l = false := by
    simp only [isCommentLine, hdl]
    have h2 : c ≠ '#' := by
      intro he
      rw [hdl, he] at hh2
      exact hh2 rfl
    have h3 : c ≠ ';' := by
      intro he
      rw [hdl, he] at hh3
      exact hh3 rfl
    simp [h2, h3]
  simp only [pstep, hts]
  rw [if_neg hne]
  rw [if_neg (by simp [hcmt])]
  rw [hcur]
  have hpos : 0 < indentOf ("\t" ++ l) :=
    Nat.lt_of_lt_of_le Nat.zero_lt_one (indentOf_tab_pad l)
  simp [hpos]

/-! ### Document store lemmas -/

theorem sectOpts_storeKV_self (d : Document) (s k v : String) :
    sectOpts (storeKV d (some s) k v) s = aset (sectOpts d s) k v := by
  simp [sectOpts, storeKV, alookup_aset_self]

theorem curLookup_storeKV_self (d : Document) (cur : Option String) (k v : String) :
    curLookup (storeKV d cur k v) cur k = some v := by
  rcases cur with _ | s
  · simp [curLookup, storeKV, alookup_aset_self]
  · simp [curLookup, sectOpts_storeKV_self, alookup_aset_self]

theorem storeKV_storeKV_self (d : Document) (cur : Option String) (k v w : String) :
    storeKV (storeKV d cur k v) cur k w = storeKV d cur k w := by
  rcases cur with _ | s
  · simp [storeKV, aset_aset_self]
  · simp only [storeKV]
    have h1 : sectOpts { d with sections := aset d.sections s (aset (sectOpts d s) k v) } s
        = aset (sectOpts d s) k v := by
      simp [sectOpts, alookup_aset_self]
    rw [h1]
    rw [aset_aset_self]
    rw [aset_aset_self]

theorem aset_same {β : Type} (l : List (String × β)) (k : String) (v : β)
    (h : alookup l k = some v) : aset l k v = l := by
  induction l with
  | nil => simp [alookup] at h
  | cons p rest ih =>
    obtain ⟨pk, pv⟩ := p
    by_cases hp : pk = k
    · subst hp
      simp only [alookup, if_pos rfl] at h
      injection h with h
      subst h
      simp [aset]
    · simp only [alookup, if_neg hp] at h
      simp [aset, hp, ih h]

theorem storeKV_same (d : Document) (cur : Option String) (k v : String)
    (h : curLookup d cur k = some v) : storeKV d cur k v = d := by
  rcases cur with _ | s
  · simp only [curLookup] at h
    simp [storeKV, aset_same _ _ _ h]
  · simp only [curLookup] at h
    rcases hsec : alookup d.sections s with _ | opts
    · rw [show sectOpts d s = [] by simp [sectOpts, hsec]] at h
      simp [alookup] at h
    · have hopts : sectOpts d s = opts := by simp [sectOpts, hsec]
      rw [hopts] at h
      simp [storeKV, hopts, aset_same _ _ _ h, aset_same _ _ _ hsec]

theorem appendFrag_eq (d : Document) (cur : Option String) (k w : String) (b : Nat)
    (frag : String) (h : curLookup d cur k = some w) :
    appendFrag d cur k b frag = storeKV d cur k (w ++ nlRep (b + 1) ++ frag) := by
  simp [appendFrag, h]

theorem curLookup_blanks (st : PState) : ∀ n,
    curLookup { st with blanks := n }.doc { st with blanks := n }.cur
      = curLookup st.doc st.cur := fun _ => rfl

/-! ### Continuation-run and option-run lemmas -/

theorem pfold_contLines (ls : List String) : ∀ (st : PState) (k w : String),
    st.curOpt = some (k, 0) →
    curLookup st.doc st.cur k = some w →
    (∀ l ∈ ls, strim l = l ∧ l.data.head? ≠ some '#' ∧ l.data.head? ≠ some ';') →
    pfold (ls.map (fun l => "\t" ++ l)) st =
      .ok ⟨storeKV st.doc st.cur k (w ++ contrib st.blanks ls), st.cur, some (k, 0),
           tblanks st.blanks ls, st.seen⟩ := by
  induction ls with
  | nil =>
    intro st k w hcur hlk _
    obtain ⟨d0, cur0, co0, b0, seen0⟩ := st
    simp only [List.map_nil, pfold, contrib, tblanks]
    rw [show w ++ "" = w from by simp]
    rw [storeKV_same _ _ _ _ hlk]
    simp only at hcur
    rw [hcur]
  | cons l rest ih =>
    intro st k w hcur hlk hwf
    rw [List.map_cons, pfold]
    by_cases hl0 : l = ""
    · subst hl0
      rw [show ("\t" ++ "") = "\t" from rfl]
      rw [pstep_blank st "\t" (by decide)]
      rw [if_pos (by rw [hcur]; rfl)]
      show pfold (rest.map (fun l => "\t" ++ l)) { st with blanks := st.blanks + 1 } = _
      rw [ih { st with blanks := st.blanks + 1 } k w hcur hlk
        (fun l' hl' => hwf l' (by simp [hl']))]
      simp [contrib, tblanks]
    · obtain ⟨hltr, hlh2, hlh3⟩ := hwf l (by simp)
      rw [pstep_cont st k hcur l hltr hl0 hlh2 hlh3]
      show pfold (rest.map (fun l => "\t" ++ l))
        { st with doc := appendFrag st.doc st.cur k st.blanks l, blanks := 0 } = _
      rw [appendFrag_eq st.doc st.cur k w st.blanks l hlk]
      rw [ih { st with doc := storeKV st.doc st.cur k (w ++ nlRep (st.blanks + 1) ++ l),
                       blanks := 0 } k (w ++ nlRep (st.blanks + 1) ++ l) hcur
        (curLookup_storeKV_self _ _ _ _)
        (fun l' hl' => hwf l' (by simp [hl']))]
      simp only [storeKV_storeKV_self]
      simp only [contrib, tblanks]
      rw [if_neg hl0, if_neg hl0]
      rw [show w ++ nlRep (st.blanks + 1) ++ l ++ contrib 0 rest
        = w ++ (nlRep (st.blanks + 1) ++ l ++ contrib 0 rest) from by
          simp [String.append_assoc]]

/-! ### Value reassembly lemmas -/

theorem splitNl_ne_nil (cs : List Char) : splitNl cs ≠ [] := by
  induction cs with
  | nil => simp [splitNl]
  | cons c rest ih =>
    rw [splitNl]
    by_cases hc : c = '\n'
    · simp [hc]
    · rw [if_neg hc]
      rcases hs : splitNl rest with _ | ⟨l, ls⟩
      · simp
      · simp

theorem vlines_ne_nil (v : String) : vlines v ≠ [] := by
  intro h
  have := congrArg List.length h
  simp only [vlines, List.length_map, List.length_nil] at this
  exact splitNl_ne_nil v.data (List.length_eq_zero.mp this)

theorem sjoin_cons_ne (x : String) (xs : List String) (h : xs ≠ []) :
    sjoin (x :: xs) = x ++ "\n" ++ sjoin xs := by
  rcases xs with _ | ⟨y, ys⟩
  · exact absurd rfl h
  · rfl

theorem sjoin_splitNl (cs : List Char) :
    sjoin ((splitNl cs).map (fun l => (⟨l⟩ : String))) = ⟨cs⟩ := by
  induction cs with
  | nil => rfl
  | cons c rest ih =>
    rw [splitNl]
    by_cases hc : c = '\n'
    · subst hc
      rw [if_pos rfl, List.map_cons]
      rw [sjoin_cons_ne _ _ (by
        intro h
        have := congrArg List.length h
        simp only [List.length_map, List.length_nil] at this
        exact splitNl_ne_nil rest (List.length_eq_zero.mp this))]
      rw [ih]
      apply String.ext
      simp
    · rw [if_neg hc]
      rcases hs : splitNl rest with _ | ⟨l, ls⟩
      · exact absurd hs (splitNl_ne_nil rest)
      · rw [hs] at ih
        rcases ls with _ | ⟨m, ms⟩
        · simp only [List.map_cons, List.map_nil, sjoin] at ih ⊢
          apply String.ext
          have := congrArg String.data ih
          simp at this ⊢
          exact this
        · rw [List.map_cons]
          rw [sjoin_cons_ne _ _ (by simp)]
          rw [List.map_cons] at ih
          rw [sjoin_cons_ne _ _ (by simp)] at ih
          apply String.ext
          have := congrArg String.data ih
          simp at this ⊢
          exact this

theorem sjoin_vlines (v : String) : sjoin (vlines v) = v := by
  have h := sjoin_splitNl v.data
  simpa [vlines] using h

theorem contrib_eq_sjoin (ls : List String) : ∀ b,
    ls ≠ [] → ls.getLast? ≠ some "" →
    contrib b ls = nlRep b ++ "\n" ++ sjoin ls := by
  induction ls with
  | nil => intro b h _; exact absurd rfl h
  | cons l rest ih =>
    intro b _ hlast
    by_cases hl0 : l = ""
    · subst hl0
      have hrne : rest ≠ [] := by
        intro h
        subst h
        exact hlast rfl
      rw [show contrib b ("" :: rest) = contrib (b + 1) rest from by simp [contrib]]
      rw [ih (b + 1) hrne (by
        rcases rest with _ | ⟨m, ms⟩
        · exact absurd rfl hrne
        · rw [List.getLast?_cons_cons] at hlast
          exact hlast)]
      rw [sjoin_cons_ne _ _ hrne]
      apply String.ext
      simp [nlRep, sjoin, List.replicate_succ', List.append_assoc]
    · rw [show contrib b (l :: rest) = nlRep (b + 1) ++ l ++ contrib 0 rest from by
        simp [contrib, hl0]]
      rcases rest with _ | ⟨m, ms⟩
      · simp only [contrib, sjoin]
        apply String.ext
        simp [nlRep, List.replicate_succ', List.append_assoc]
      · rw [ih 0 (by simp) (by
          rw [List.getLast?_cons_cons] at hlast
          exact hlast)]
        rw [sjoin_cons_ne l (m :: ms) (by simp)]
        apply String.ext
        simp [nlRep, sjoin, List.replicate_succ', List.append_assoc]

theorem tblanks_eq_zero (ls : List String) : ∀ b,
    ls ≠ [] → ls.getLast? ≠ some "" → tblanks b ls = 0 := by
  induction ls with
  | nil => intro b h _; exact absurd rfl h
  | cons l rest ih =>
    intro b _ hlast
    by_cases hl0 : l = ""
    · subst hl0
      have hrne : rest ≠ [] := by
        intro h
        subst h
        exact hlast rfl
      rw [show tblanks b ("" :: rest) = tblanks (b + 1) rest from by simp [tblanks]]
      exact ih (b + 1) hrne (by
        rcases rest with _ | ⟨m, ms⟩
        · exact absurd rfl hrne
        · rw [List.getLast?_cons_cons] at hlast
          exact hlast)
    · rw [show tblanks b (l :: rest) = tblanks 0 rest from by simp [tblanks, hl0]]
      rcases rest with _ | ⟨m, ms⟩
      · rfl
      · exact ih 0 (by simp) (by
          rw [List.getLast?_cons_cons] at hlast
          exact hlast)

theorem pfold_optLines (st : PState) (k v : String) (hk : WFKey k) (hv : WFValue v) :
    pfold (optLines k v) st =
      .ok ⟨storeKV st.doc st.cur k v, st.cur, some (k, 0), 0, st.seen⟩ := by
  obtain ⟨hv1, hv2, hv3⟩ := hv
  rcases hvl : vlines v with _ | ⟨l0, rest⟩
  · exact absurd hvl (vlines_ne_nil v)
  · have hl0tr : strim l0 = l0 := hv1 l0 (by rw [hvl]; simp)
    simp only [optLines, hvl]
    rw [pfold]
    rw [pstep_kv st k l0 hk hl0tr]
    show pfold (rest.map (fun l => "\t" ++ l))
      ⟨storeKV st.doc st.cur k l0, st.cur, some (k, 0), 0, st.seen⟩ = _
    rw [pfold_contLines rest ⟨storeKV st.doc st.cur k l0, st.cur, some (k, 0), 0, st.seen⟩
      k l0 rfl (curLookup_storeKV_self _ _ _ _)
      (fun l hl => ⟨hv1 l (by rw [hvl]; simp [hl]),
        (hv2 l (by rw [hvl]; simpa using hl)).1,
        (hv2 l (by rw [hvl]; simpa using hl)).2⟩)]
    rw [hvl] at hv3
    simp only [List.tail_cons] at hv3
    have hval : l0 ++ contrib 0 rest = v := by
      rcases hrn : rest with _ | ⟨m, ms⟩
      · rw [show contrib 0 ([] : List String) = "" from rfl, String.append_empty]
        have := sjoin_vlines v
        rw [hvl, hrn] at this
        exact this
      · rw [← hrn]
        rw [contrib_eq_sjoin rest 0 (by rw [hrn]; simp) hv3]
        have := sjoin_vlines v
        rw [hvl] at this
        rw [← this]
        rw [sjoin_cons_ne l0 rest (by rw [hrn]; simp)]
        apply String.ext
        simp [nlRep, List.append_assoc]
    have hbl : tblanks 0 rest = 0 := by
      rcases hrn : rest with _ | ⟨m, ms⟩
      · rfl
      · rw [← hrn]
        exact tblanks_eq_zero rest 0 (by rw [hrn]; simp) hv3
    rw [storeKV_storeKV_self, hval, hbl]

theorem pfold_optsBlock (opts : List (String × String)) : ∀ st : PState,
    (∀ p ∈ opts, WFKey p.1 ∧ WFValue p.2) →
    pfold (opts.flatMap (fun p => optLines p.1 p.2)) st =
      .ok ⟨opts.foldl (fun d p => storeKV d st.cur p.1 p.2) st.doc, st.cur,
           lastKey opts st.curOpt, lastBlanks opts st.blanks, st.seen⟩ := by
  induction opts with
  | nil =>
    intro st _
    obtain ⟨d0, cur0, co0, b0, seen0⟩ := st
    rfl
  | cons p rest ih =>
    intro st hwf
    rw [List.flatMap_cons, pfold_append]
    rw [pfold_optLines st p.1 p.2 (hwf p (by simp)).1 (hwf p (by simp)).2]
    show pfold (rest.flatMap fun q => optLines q.1 q.2)
      ⟨storeKV st.doc st.cur p.1 p.2, st.cur, some (p.1, 0), 0, st.seen⟩ = _
    rw [ih ⟨storeKV st.doc st.cur p.1 p.2, st.cur, some (p.1, 0), 0, st.seen⟩
      (fun q hq => hwf q (by simp [hq]))]
    rfl

/-! ### Section-block lemmas -/

theorem pfold_sectLines (st : PState) (name : String) (opts : List (String × String))
    (hn : WFSectName name) (hseen : name ∉ st.seen)
    (hopts : ∀ p ∈ opts, WFKey p.1 ∧ WFValue p.2) :
    pfold (sectLines name opts) st =
      .ok ⟨mergeSect st.doc name opts, some name, lastKey opts none,
           if (lastKey opts none).isSome then lastBlanks opts 0 + 1 else lastBlanks opts 0,
           name :: st.seen⟩ := by
  obtain ⟨hn1, hn2, hn3⟩ := hn
  simp only [sectLines]
  rw [pfold]
  rw [pstep_header st name hn1 hn2 hn3 hseen]
  show pfold (opts.flatMap (fun p => optLines p.1 p.2) ++ [""])
    ⟨ensureSection st.doc name, some name, none, 0, name :: st.seen⟩ = _
  rw [pfold_append]
  rw [pfold_optsBlock opts ⟨ensureSection st.doc name, some name, none, 0, name :: st.seen⟩ hopts]
  show pfold [""]
    ⟨opts.foldl (fun d p => storeKV d (some name) p.1 p.2) (ensureSection st.doc name),
     some name, lastKey opts none, lastBlanks opts 0, name :: st.seen⟩ = _
  rw [pfold]
  rw [pstep_blank _ "" rfl]
  rcases hlk : lastKey opts none with _ | ki
  · rfl
  · rfl

theorem pfold_defaultsBlock (st : PState) (defs : List (String × String))
    (hwf : ∀ p ∈ defs, WFKey p.1 ∧ WFValue p.2) :
    pfold (sectLines "DEFAULT" defs) st =
      .ok ⟨defs.foldl (fun d p => storeKV d none p.1 p.2) st.doc, none, lastKey defs none,
           if (lastKey defs none).isSome then lastBlanks defs 0 + 1 else lastBlanks defs 0,
           st.seen⟩ := by
  simp only [sectLines]
  rw [pfold]
  rw [show ("[" ++ "DEFAULT" ++ "]") = "[DEFAULT]" from rfl]
  rw [pstep_header_default st]
  show pfold (defs.flatMap (fun p => optLines p.1 p.2) ++ [""])
    ⟨st.doc, none, none, 0, st.seen⟩ = _
  rw [pfold_append]
  rw [pfold_optsBlock defs ⟨st.doc, none, none, 0, st.seen⟩ hwf]
  show pfold [""]
    ⟨defs.foldl (fun d p => storeKV d none p.1 p.2) st.doc,
     none, lastKey defs none, lastBlanks defs 0, st.seen⟩ = _
  rw [pfold]
  rw [pstep_blank _ "" rfl]
  rcases hlk : lastKey defs none with _ | ki
  · rfl
  · rfl

theorem pfold_sections (SL : List (String × List (String × String))) : ∀ st : PState,
    (∀ p ∈ SL, WFSectName p.1 ∧ ∀ q ∈ p.2, WFKey q.1 ∧ WFValue q.2) →
    (∀ p ∈ SL, p.1 ∉ st.seen) →
    (SL.map Prod.fst).Nodup →
    ∃ st', pfold (SL.flatMap (fun p => sectLines p.1 p.2)) st = .ok st' ∧
      st'.doc = SL.foldl (fun d p => mergeSect d p.1 p.2) st.doc ∧
      st'.seen = (SL.map Prod.fst).reverse ++ st.seen := by
  induction SL with
  | nil =>
    intro st _ _ _
    exact ⟨st, rfl, rfl, by simp⟩
  | cons p rest ih =>
    intro st hwf hseen hnd
    rw [List.flatMap_cons, pfold_append]
    rw [pfold_sectLines st p.1 p.2 (hwf p (by simp)).1 (hseen p (by simp))
      (hwf p (by simp)).2]
    have hmem : ∀ q ∈ rest, q.1 ∉ p.1 :: st.seen := by
      intro q hq
      simp only [List.mem_cons]
      rintro (h1 | h2)
      · simp only [List.map_cons, List.nodup_cons] at hnd
        exact hnd.1 (h1 ▸ List.mem_map_of_mem Prod.fst hq)
      · exact hseen q (by simp [hq]) h2
    obtain ⟨st', heq, hdoc, hseen'⟩ := ih
      ⟨mergeSect st.doc p.1 p.2, some p.1, lastKey p.2 none,
       if (lastKey p.2 none).isSome then lastBlanks p.2 0 + 1 else lastBlanks p.2 0,
       p.1 :: st.seen⟩
      (fun q hq => hwf q (by simp [hq])) hmem
      (by simp only [List.map_cons, List.nodup_cons] at hnd; exact hnd.2)
    refine ⟨st', ?_, ?_, ?_⟩
    · show pfold (rest.flatMap (fun q => sectLines q.1 q.2)) _ = .ok st'
      exact heq
    · rw [hdoc]
      rfl
    · rw [hseen']
      simp

/-! ### Merge characterization -/

theorem alookup_none_of_not_mem_keys {β : Type} (l : List (String × β)) (k : String)
    (h : k ∉ l.map Prod.fst) : alookup l k = none := by
  induction l with
  | nil => rfl
  | cons p rest ih =>
    simp only [List.map_cons, List.mem_cons] at h
    push_neg at h
    rw [alookup, if_neg (fun he => h.1 he.symm)]
    exact ih h.2

theorem alookup_mem {β : Type} (l : List (String × β)) (k : String) (v : β)
    (h : alookup l k = some v) : (k, v) ∈ l := by
  induction l with
  | nil => simp [alookup] at h
  | cons p rest ih =>
    by_cases hp : p.1 = k
    · simp only [alookup, if_pos hp] at h
      injection h with h
      have : (k, v) = p := by
        rw [← hp, ← h]
      rw [this]
      exact List.mem_cons_self p rest
    · simp only [alookup, if_neg hp] at h
      exact List.mem_cons_of_mem _ (ih h)

theorem aset_entry_append {β : Type} (l : List (String × β)) (n : String) (X Y : β)
    (h : alookup l n = none) : aset (l ++ [(n, X)]) n Y = l ++ [(n, Y)] := by
  induction l with
  | nil => simp [aset]
  | cons p rest ih =>
    by_cases hp : p.1 = n
    · simp [alookup, hp] at h
    · simp only [alookup, if_neg hp] at h
      simp [aset, hp, ih h]

theorem foldl_aset_restore (opts : List (String × String)) : ∀ acc,
    (opts.map Prod.fst).Nodup → (∀ p ∈ opts, alookup acc p.1 = none) →
    opts.foldl (fun a p => aset a p.1 p.2) acc = acc ++ opts := by
  induction opts with
  | nil => intro acc _ _; simp
  | cons p rest ih =>
    intro acc hnd hdisj
    rw [List.foldl_cons]
    rw [aset_fresh acc p.1 p.2 (hdisj p (by simp))]
    simp only [List.map_cons, List.nodup_cons] at hnd
    rw [ih (acc ++ [(p.1, p.2)]) hnd.2 ?fresh]
    · simp
    case fresh =>
      intro q hq
      rw [alookup_append]
      rw [hdisj q (by simp [hq])]
      have hne : ¬ p.1 = q.1 := by
        intro he
        exact hnd.1 (he ▸ List.mem_map_of_mem Prod.fst hq)
      simp [alookup, hne]

theorem storeFold_section (opts : List (String × String)) :
    ∀ (dfl : List (String × String))
      (secs : List (String × List (String × String))) (n : String)
      (X : List (String × String)),
    alookup secs n = none →
    opts.foldl (fun d p => storeKV d (some n) p.1 p.2) ⟨dfl, secs ++ [(n, X)]⟩ =
      ⟨dfl, secs ++ [(n, opts.foldl (fun a p => aset a p.1 p.2) X)]⟩ := by
  induction opts with
  | nil => intro dfl secs n X _; rfl
  | cons p rest ih =>
    intro dfl secs n X hn
    rw [List.foldl_cons, List.foldl_cons]
    have hso : sectOpts ⟨dfl, secs ++ [(n, X)]⟩ n = X := by
      simp [sectOpts, alookup_append, hn, alookup]
    have hstep : storeKV ⟨dfl, secs ++ [(n, X)]⟩ (some n) p.1 p.2
        = ⟨dfl, secs ++ [(n, aset X p.1 p.2)]⟩ := by
      simp only [storeKV, hso]
      rw [aset_entry_append _ _ _ _ hn]
    rw [hstep, ih dfl secs n (aset X p.1 p.2) hn]

theorem mergeSect_fresh (dd : Document) (n : String) (opts : List (String × String))
    (hn : alookup dd.sections n = none) (hnd : (opts.map Prod.fst).Nodup) :
    mergeSect dd n opts = ⟨dd.defaults, dd.sections ++ [(n, opts)]⟩ := by
  unfold mergeSect
  have he : ensureSection dd n = ⟨dd.defaults, dd.sections ++ [(n, [])]⟩ := by
    simp [ensureSection, hn]
  rw [he]
  rw [storeFold_section opts dd.defaults dd.sections n [] hn]
  rw [foldl_aset_restore opts [] hnd (fun p _ => rfl)]
  rfl

theorem foldl_mergeSect_fresh (SL : List (String × List (String × String))) :
    ∀ dd : Document,
    (∀ p ∈ SL, alookup dd.sections p.1 = none) →
    (SL.map Prod.fst).Nodup →
    (∀ p ∈ SL, (p.2.map Prod.fst).Nodup) →
    SL.foldl (fun d p => mergeSect d p.1 p.2) dd = ⟨dd.defaults, dd.sections ++ SL⟩ := by
  induction SL with
  | nil =>
    intro dd _ _ _
    cases dd
    simp
  | cons p rest ih =>
    intro dd habs hnd hknd
    rw [List.foldl_cons]
    rw [mergeSect_fresh dd p.1 p.2 (habs p (by simp)) (hknd p (by simp))]
    simp only [List.map_cons, List.nodup_cons] at hnd
    rw [ih ⟨dd.defaults, dd.sections ++ [(p.1, p.2)]⟩ ?fresh hnd.2
      (fun q hq => hknd q (by simp [hq]))]
    · simp
    case fresh =>
      intro q hq
      show alookup (dd.sections ++ [(p.1, p.2)]) q.1 = none
      rw [alookup_append]
      rw [habs q (by simp [hq])]
      have hne : ¬ p.1 = q.1 := by
        intro he
        exact hnd.1 (he ▸ List.mem_map_of_mem Prod.fst hq)
      simp [alookup, hne]

theorem storeFold_defaults (defs : List (String × String)) : ∀ d : Document,
    defs.foldl (fun dd p => storeKV dd none p.1 p.2) d =
      ⟨defs.foldl (fun a p => aset a p.1 p.2) d.defaults, d.sections⟩ := by
  induction defs with
  | nil => intro d; cases d; rfl
  | cons p rest ih =>
    intro d
    rw [List.foldl_cons, List.foldl_cons]
    rw [show storeKV d none p.1 p.2 = ⟨aset d.defaults p.1 p.2, d.sections⟩ from rfl]
    rw [ih ⟨aset d.defaults p.1 p.2, d.sections⟩]

theorem sectOpts_ensure (dd : Document) (n : String) :
    sectOpts (ensureSection dd n) n = sectOpts dd n := by
  unfold ensureSection
  by_cases hp : (alookup dd.sections n).isSome
  · rw [if_pos hp]
  · rw [if_neg hp]
    rcases hl : alookup dd.sections n with _ | opts
    · simp [sectOpts, alookup_append, hl, alookup]
    · rw [hl] at hp
      simp at hp

theorem sectOpts_storeFold (opts : List (String × String)) (n : String) :
    ∀ d : Document,
    sectOpts (opts.foldl (fun d p => storeKV d (some n) p.1 p.2) d) n =
      opts.foldl (fun a p => aset a p.1 p.2) (sectOpts d n) := by
  induction opts with
  | nil => intro d; rfl
  | cons p rest ih =>
    intro d
    rw [List.foldl_cons, List.foldl_cons]
    rw [ih (storeKV d (some n) p.1 p.2)]
    rw [sectOpts_storeKV_self]

theorem sectOpts_mergeSect_self (dd : Document) (n : String)
    (opts : List (String × String)) :
    sectOpts (mergeSect dd n opts) n =
      opts.foldl (fun a p => aset a p.1 p.2) (sectOpts dd n) := by
  unfold mergeSect
  rw [sectOpts_storeFold]
  rw [sectOpts_ensure]

theorem alookup_foldl_aset_not_mem (kvs : List (String × String)) : ∀ base k,
    k ∉ kvs.map Prod.fst →
    alookup (kvs.foldl (fun a p => aset a p.1 p.2) base) k = alookup base k := by
  induction kvs with
  | nil => intro base k _; rfl
  | cons p rest ih =>
    intro base k hk
    simp only [List.map_cons, List.mem_cons] at hk
    push_neg at hk
    rw [List.foldl_cons]
    rw [ih (aset base p.1 p.2) k hk.2]
    exact alookup_aset_ne base p.1 k p.2 hk.1

theorem alookup_foldl_aset (kvs : List (String × String)) : ∀ base k,
    (kvs.map Prod.fst).Nodup →
    alookup (kvs.foldl (fun a p => aset a p.1 p.2) base) k =
      match alookup kvs k with
      | some v => some v
      | none => alookup base k := by
  induction kvs with
  | nil => intro base k _; rfl
  | cons p rest ih =>
    intro base k hnd
    simp only [List.map_cons, List.nodup_cons] at hnd
    rw [List.foldl_cons]
    by_cases hp : p.1 = k
    · subst hp
      have hrest : alookup rest p.1 = none :=
        alookup_none_of_not_mem_keys rest p.1 hnd.1
      rw [alookup_foldl_aset_not_mem rest (aset base p.1 p.2) p.1 hnd.1]
      rw [alookup_aset_self]
      simp [alookup]
    · rw [ih (aset base p.1 p.2) k hnd.2]
      rw [alookup_aset_ne base p.1 k p.2 (fun he => hp he.symm)]
      simp only [alookup, if_neg hp]

theorem mergeSect_defaults (dd : Document) (n : String)
    (opts : List (String × String)) :
    (mergeSect dd n opts).defaults = dd.defaults := by
  unfold mergeSect
  have hens : (ensureSection dd n).defaults = dd.defaults := by
    unfold ensureSection
    split <;> rfl
  rw [show ∀ os : List (String × String), ∀ d : Document,
      (os.foldl (fun d p => storeKV d (some n) p.1 p.2) d).defaults = d.defaults from ?_]
  · exact hens
  · intro os
    induction os with
    | nil => intro d; rfl
    | cons p rest ih =>
      intro d
      rw [List.foldl_cons]
      rw [ih (storeKV d (some n) p.1 p.2)]
      rfl

theorem mergeSect_other (dd : Document) (n : String) (opts : List (String × String))
    (m : String) (hm : m ≠ n) :
    alookup (mergeSect dd n opts).sections m = alookup dd.sections m := by
  unfold mergeSect
  have hens : alookup (ensureSection dd n).sections m = alookup dd.sections m := by
    unfold ensureSection
    split
    · rfl
    · show alookup (dd.sections ++ [(n, [])]) m = alookup dd.sections m
      rw [alookup_append]
      rcases hl : alookup dd.sections m with _ | o
      · have hnm : ¬ n = m := fun he => hm he.symm
        simp [alookup, hnm]
      · rfl
  rw [show ∀ os : List (String × String), ∀ d : Document,
      alookup (os.foldl (fun d p => storeKV d (some n) p.1 p.2) d).sections m
        = alookup d.sections m from ?_]
  · exact hens
  · intro os
    induction os with
    | nil => intro d; rfl
    | cons p rest ih =>
      intro d
      rw [List.foldl_cons]
      rw [ih (storeKV d (some n) p.1 p.2)]
      show alookup (aset d.sections n _) m = alookup d.sections m
      exact alookup_aset_ne _ _ _ _ hm

/-! ### C8: serializer round-trip -/

/-- C8 (amended): for every well-formed Document — values whose lines carry no
edge whitespace, do not start like comments, and do not end in a blank line;
normalized duplicate-free keys; section names free of `]` and distinct from
DEFAULT — parsing the serializer's output reproduces the Document exactly. -/
theorem serializer_roundtrip (d : Document) (h : WFDoc d) :
    read_lines (writeLines d) emptyDocument = .ok d := by
  obtain ⟨hdef, hdefnd, hsect, hsectnd⟩ := h
  have hsectwf : ∀ p ∈ d.sections, WFSectName p.1 ∧ ∀ q ∈ p.2, WFKey q.1 ∧ WFValue q.2 :=
    fun p hp => ⟨(hsect p hp).1, (hsect p hp).2.1⟩
  unfold read_lines writeLines
  by_cases hde : d.defaults.isEmpty
  · rw [if_pos hde, List.nil_append]
    obtain ⟨st', heq, hdoc, _⟩ := pfold_sections d.sections (initState emptyDocument)
      hsectwf (fun p _ => List.not_mem_nil p.1) hsectnd
    rw [heq]
    show Except.ok st'.doc = Except.ok d
    rw [hdoc]
    rw [foldl_mergeSect_fresh d.sections (initState emptyDocument).doc
      (fun p _ => rfl) hsectnd (fun p hp => (hsect p hp).2.2)]
    have hdefe : d.defaults = [] := by
      simpa [List.isEmpty_iff] using hde
    cases d
    simp_all [initState, emptyDocument]
  · rw [if_neg hde]
    rw [pfold_append]
    rw [pfold_defaultsBlock (initState emptyDocument) d.defaults hdef]
    have hd1 : d.defaults.foldl (fun dd p => storeKV dd none p.1 p.2) emptyDocument
        = ⟨d.defaults, []⟩ := by
      rw [storeFold_defaults]
      rw [show emptyDocument.defaults = [] from rfl]
      rw [foldl_aset_restore d.defaults [] hdefnd (fun p _ => rfl)]
      rfl
    show Except.map (fun st => st.doc)
      (pfold (d.sections.flatMap fun p => sectLines p.1 p.2)
        ⟨d.defaults.foldl (fun dd p => storeKV dd none p.1 p.2) emptyDocument, none,
         lastKey d.defaults none,
         if (lastKey d.defaults none).isSome then lastBlanks d.defaults 0 + 1
           else lastBlanks d.defaults 0,
         []⟩) = .ok d
    obtain ⟨st', heq, hdoc, _⟩ := pfold_sections d.sections
      ⟨d.defaults.foldl (fun dd p => storeKV dd none p.1 p.2) emptyDocument, none,
       lastKey d.defaults none,
       if (lastKey d.defaults none).isSome then lastBlanks d.defaults 0 + 1
         else lastBlanks d.defaults 0,
       []⟩
      hsectwf (fun p _ => List.not_mem_nil p.1) hsectnd
    rw [heq]
    show Except.ok st'.doc = Except.ok d
    rw [hdoc]
    show Except.ok (d.sections.foldl (fun dd p => mergeSect dd p.1 p.2)
      (d.defaults.foldl (fun dd p => storeKV dd none p.1 p.2) emptyDocument)) = Except.ok d
    rw [hd1]
    rw [foldl_mergeSect_fresh d.sections ⟨d.defaults, []⟩
      (fun p _ => rfl) hsectnd (fun p hp => (hsect p hp).2.2)]
    cases d
    simp

/-- C8 counterexample: the claim fails for an arbitrary Document — a stored
value with leading whitespace (producible via the set API) loses it in the
serialize-then-parse cycle, so the re-parsed Document is not equal. -/
theorem serializer_roundtrip_counterexample :
    read_lines (writeLines ⟨[], [("s", [("k", " x")])]⟩) emptyDocument
      = .ok ⟨[], [("s", [("k", "x")])]⟩ ∧
    (⟨[], [("s", [("k", "x")])]⟩ : Document) ≠ ⟨[], [("s", [("k", " x")])]⟩ := by
  constructor
  · decide
  · decide

/-- C8 witness: a representative well-formed Document (defaults, two sections,
a multiline value with an interior blank line, an empty section) round-trips. -/
theorem serializer_roundtrip_witness :
    read_lines (writeLines ⟨[("c", "yes")],
        [("forge", [("user", "hg")]), ("multi", [("chorus", "a b\n\nc d"), ("e", "")]),
         ("empty", [])]⟩) emptyDocument
      = .ok ⟨[("c", "yes")],
        [("forge", [("user", "hg")]), ("multi", [("chorus", "a b\n\nc d"), ("e", "")]),
         ("empty", [])]⟩ :=
  serializer_roundtrip _ (by
    refine ⟨by decide, by decide, ?_, by decide⟩
    intro q hq
    fin_cases hq <;> exact ⟨by decide, by decide, by decide⟩)

/-! ### C4: multi-source merge -/

/-- C4: merging a second source into an already-populated Document upserts the
section and overwrites key-by-key: a key defined in the new source ends with
the new source's value, a key defined only in the old Document keeps its
value, other sections and the defaults are untouched, and no duplicate error
is raised (the parse succeeds). -/
theorem multi_source_merge (docA : Document) (sname : String)
    (kvs : List (String × String))
    (hn : WFSectName sname) (hopts : ∀ p ∈ kvs, WFKey p.1 ∧ WFValue p.2)
    (hnd : (kvs.map Prod.fst).Nodup) :
    read_lines (sectLines sname kvs) docA = .ok (mergeSect docA sname kvs) ∧
    (∀ k v, alookup kvs k = some v →
      alookup (sectOpts (mergeSect docA sname kvs) sname) k = some v) ∧
    (∀ k, alookup kvs k = none →
      alookup (sectOpts (mergeSect docA sname kvs) sname) k
        = alookup (sectOpts docA sname) k) ∧
    (∀ m, m ≠ sname →
      alookup (mergeSect docA sname kvs).sections m = alookup docA.sections m) ∧
    (mergeSect docA sname kvs).defaults = docA.defaults := by
  refine ⟨?_, ?_, ?_, fun m hm => mergeSect_other docA sname kvs m hm,
    mergeSect_defaults docA sname kvs⟩
  · unfold read_lines
    rw [pfold_sectLines (initState docA) sname kvs hn (List.not_mem_nil sname) hopts]
    rfl
  · intro k v hkv
    rw [sectOpts_mergeSect_self]
    rw [alookup_foldl_aset kvs _ k hnd]
    rw [hkv]
  · intro k hk
    rw [sectOpts_mergeSect_self]
    rw [alookup_foldl_aset kvs _ k hnd]
    rw [hk]

/-- C4 witness: the spec's port example — source B's `port=2` overwrites,
source A's `other=x` survives, and no duplicate error is raised. -/
theorem multi_source_merge_witness :
    read_lines (sectLines "section" [("port", "2")])
      ⟨[], [("section", [("port", "1"), ("other", "x")])]⟩
      = .ok (mergeSect ⟨[], [("section", [("port", "1"), ("other", "x")])]⟩
          "section" [("port", "2")]) ∧
    itemGet (mergeSect ⟨[], [("section", [("port", "1"), ("other", "x")])]⟩
      "section" [("port", "2")]) "section" "port" = some "2" ∧
    itemGet (mergeSect ⟨[], [("section", [("port", "1"), ("other", "x")])]⟩
      "section" [("port", "2")]) "section" "other" = some "x" :=
  ⟨(multi_source_merge ⟨[], [("section", [("port", "1"), ("other", "x")])]⟩
      "section" [("port", "2")] (by decide) (by decide) (by decide)).1,
   by decide, by decide⟩

/-! ### C9: the Defaults Section is invisible and irremovable -/

theorem not_mem_keys_aset {β : Type} (l : List (String × β)) (k k' : String) (v : β)
    (hl : k' ∉ l.map Prod.fst) (hk : k' ≠ k) : k' ∉ (aset l k v).map Prod.fst := by
  induction l with
  | nil => simp [aset, hk]
  | cons p rest ih =>
    simp only [List.map_cons, List.mem_cons] at hl
    push_neg at hl
    rw [aset]
    by_cases hp : p.1 = k
    · rw [if_pos hp]
      simp [hl.1, hl.2]
    · rw [if_neg hp]
      simp [hl.1, ih hl.2]

theorem not_default_storeKV (d : Document) (cur : Option String) (k v : String)
    (hd : "DEFAULT" ∉ sectionNames d) (hc : cur ≠ some "DEFAULT") :
    "DEFAULT" ∉ sectionNames (storeKV d cur k v) := by
  cases cur with
  | none => exact hd
  | some s =>
    have hs : "DEFAULT" ≠ s := fun he => hc (by rw [he])
    exact not_mem_keys_aset d.sections s "DEFAULT" _ hd hs

theorem not_default_ensure (d : Document) (n : String)
    (hd : "DEFAULT" ∉ sectionNames d) (hn : ¬ n = "DEFAULT") :
    "DEFAULT" ∉ sectionNames (ensureSection d n) := by
  rw [ensureSection]
  split_ifs with h
  · exact hd
  · intro hmem
    rw [sectionNames] at hmem
    simp only [List.map_append, List.mem_append] at hmem
    rcases hmem with hmem | hmem
    · exact hd hmem
    · simp at hmem
      exact hn hmem.symm

theorem not_default_appendFrag (d : Document) (cur : Option String) (k : String)
    (b : Nat) (frag : String)
    (hd : "DEFAULT" ∉ sectionNames d) (hc : cur ≠ some "DEFAULT") :
    "DEFAULT" ∉ sectionNames (appendFrag d cur k b frag) := by
  rw [appendFrag]
  cases curLookup d cur k <;> exact not_default_storeKV d cur k _ hd hc

theorem classify_default_hidden (st : PState) (line t : String) (st' : PState)
    (hinv : DefaultHidden st) (h : classify st line t = .ok st') : DefaultHidden st' := by
  obtain ⟨h1, h2⟩ := hinv
  rw [classify] at h
  rcases hph : parseHeader t.data with _ | name
  · simp only [hph] at h
    by_cases hhd : t.data.head? = some '['
    · rw [if_pos hhd] at h
      exact Except.noConfusion h
    · rw [if_neg hhd] at h
      rcases hsd : splitDelim t.data with _ | kv
      · simp only [hsd] at h
        exact Except.noConfusion h
      · simp only [hsd] at h
        by_cases hke : optionxform (strim ⟨kv.1⟩) = ""
        · rw [if_pos hke] at h
          exact Except.noConfusion h
        · rw [if_neg hke] at h
          simp only [Except.ok.injEq] at h
          subst h
          exact ⟨not_default_storeKV st.doc st.cur _ _ h1 h2, h2⟩
  · simp only [hph] at h
    by_cases hdef : name = "DEFAULT"
    · rw [if_pos hdef] at h
      simp only [Except.ok.injEq] at h
      subst h
      exact ⟨h1, by simp⟩
    · rw [if_neg hdef] at h
      by_cases hseen : st.seen.contains name = true
      · rw [if_pos hseen] at h
        exact Except.noConfusion h
      · rw [if_neg hseen] at h
        simp only [Except.ok.injEq] at h
        subst h
        exact ⟨not_default_ensure st.doc name h1 hdef, by simp [hdef]⟩

theorem pstep_default_hidden (st : PState) (line : String) (st' : PState)
    (hinv : DefaultHidden st) (h : pstep st line = .ok st') : DefaultHidden st' := by
  obtain ⟨h1, h2⟩ := hinv
  simp only [pstep] at h
  by_cases hblank : strim line = ""
  · rw [if_pos hblank] at h
    simp only [Except.ok.injEq] at h
    subst h
    split_ifs <;> exact ⟨h1, h2⟩
  · rw [if_neg hblank] at h
    by_cases hcmt : isCommentLine (strim line) = true
    · rw [if_pos hcmt] at h
      simp only [Except.ok.injEq] at h
      subst h
      exact ⟨h1, h2⟩
    · rw [if_neg hcmt] at h
      rcases hco : st.curOpt with _ | ki
      · simp only [hco] at h
        exact classify_default_hidden ⟨st.doc, st.cur, none, 0, st.seen⟩ line _ st' ⟨h1, h2⟩ h
      · simp only [hco] at h
        by_cases hind : ki.2 < indentOf line
        · rw [if_pos hind] at h
          simp only [Except.ok.injEq] at h
          subst h
          exact ⟨not_default_appendFrag st.doc st.cur ki.1 st.blanks _ h1 h2, h2⟩
        · rw [if_neg hind] at h
          exact classify_default_hidden ⟨st.doc, st.cur, none, 0, st.seen⟩ line _ st' ⟨h1, h2⟩ h

theorem pfold_default_hidden (lines : List String) : ∀ (st st' : PState),
    DefaultHidden st → pfold lines st = .ok st' → DefaultHidden st' := by
  induction lines with
  | nil =>
    intro st st' hinv h
    rw [pfold] at h
    simp only [Except.ok.injEq] at h
    exact h ▸ hinv
  | cons l ls ih =>
    intro st st' hinv h
    rw [pfold] at h
    rcases hps : pstep st l with e | st1
    · simp only [hps] at h
      exact Except.noConfusion h
    · simp only [hps] at h
      exact ih st1 st' (pstep_default_hidden st l st1 hinv hps) h

/-- C9: in every Document reachable by parsing — from any starting Document in
which the Defaults Section is not listed, in particular the empty one, and
through any source, including one containing an explicit `[DEFAULT]` section —
the Defaults Section never appears among the regular section names, the
removal operation refuses to remove it (it signals "no such section"), and
mapping-protocol assignment to it only replaces/clears the stored defaults:
the regular sections are untouched. -/
theorem defaults_never_listed (lines : List String) (d d' : Document)
    (m : List (String × String))
    (hd : "DEFAULT" ∉ sectionNames d)
    (h : read_lines lines d = .ok d') :
    "DEFAULT" ∉ sectionNames d' ∧
    remove_section d' "DEFAULT" = .error (.noSection "DEFAULT") ∧
    (setSectionItem d' "DEFAULT" m).sections = d'.sections ∧
    (setSectionItem d' "DEFAULT" m).defaults = varsNorm m := by
  rw [read_lines] at h
  rcases hp : pfold lines (initState d) with e | st' <;> rw [hp] at h
  · exact Except.noConfusion h
  · simp only [Except.map, Except.ok.injEq] at h
    subst h
    have hinv : DefaultHidden st' :=
      pfold_default_hidden lines (initState d) st' ⟨hd, by simp [initState]⟩ hp
    refine ⟨hinv.1, ?_, by simp [setSectionItem], by simp [setSectionItem]⟩
    rw [remove_section]
    rw [alookup_none_of_not_mem_keys st'.doc.sections "DEFAULT" hinv.1]
    rfl

/-- C9 witness: parsing a source with an explicit `[DEFAULT]` section and one
regular section lists only the regular section, removal of the Defaults
Section errors, and assigning `[]` to it clears the defaults in place. -/
theorem defaults_never_listed_witness :
    "DEFAULT" ∉ sectionNames ⟨[("c", "1")], [("s", [("k", "v")])]⟩ ∧
    remove_section ⟨[("c", "1")], [("s", [("k", "v")])]⟩ "DEFAULT"
      = .error (.noSection "DEFAULT") ∧
    (setSectionItem ⟨[("c", "1")], [("s", [("k", "v")])]⟩ "DEFAULT" []).sections
      = (⟨[("c", "1")], [("s", [("k", "v")])]⟩ : Document).sections ∧
    (setSectionItem ⟨[("c", "1")], [("s", [("k", "v")])]⟩ "DEFAULT" []).defaults
      = varsNorm [] :=
  defaults_never_listed ["[DEFAULT]", "c = 1", "[s]", "k = v"] emptyDocument
    ⟨[("c", "1")], [("s", [("k", "v")])]⟩ [] (by decide) (by decide)

/-! ### C6: case handling of keys and section names -/

theorem mem_aset {β : Type} (l : List (String × β)) (k : String) (v : β) (p : String × β)
    (h : p ∈ aset l k v) : p ∈ l ∨ p = (k, v) := by
  induction l with
  | nil =>
    simp [aset] at h
    exact Or.inr h
  | cons q rest ih =>
    rw [aset] at h
    by_cases hq : q.1 = k
    · rw [if_pos hq] at h
      rcases List.mem_cons.mp h with h | h
      · exact Or.inr (by rw [h, hq])
      · exact Or.inl (List.mem_cons_of_mem q h)
    · rw [if_neg hq] at h
      rcases List.mem_cons.mp h with h | h
      · exact Or.inl (by rw [h]; exact List.mem_cons_self q rest)
      · rcases ih h with h' | h'
        · exact Or.inl (List.mem_cons_of_mem q h')
        · exact Or.inr h'

theorem keysNorm_sectOpts (d : Document) (s : String) (hd : KeysNormalized d) :
    ∀ p ∈ sectOpts d s, optionxform p.1 = p.1 := by
  intro p hp
  rw [sectOpts] at hp
  rcases hl : alookup d.sections s with _ | opts
  · rw [hl] at hp
    simp at hp
  · rw [hl] at hp
    exact hd.2 (s, opts) (alookup_mem d.sections s opts hl) p hp

theorem keysNorm_storeKV (d : Document) (cur : Option String) (k v : String)
    (hd : KeysNormalized d) (hk : optionxform k = k) :
    KeysNormalized (storeKV d cur k v) := by
  obtain ⟨hdef, hsec⟩ := hd
  cases cur with
  | none =>
    refine ⟨?_, hsec⟩
    intro p hp
    rcases mem_aset d.defaults k v p hp with h | h
    · exact hdef p h
    · rw [h]
      exact hk
  | some s =>
    refine ⟨hdef, ?_⟩
    intro q hq p hp
    rcases mem_aset d.sections s _ q hq with h | h
    · exact hsec q h p hp
    · rw [h] at hp
      rcases mem_aset (sectOpts d s) k v p hp with h' | h'
      · exact keysNorm_sectOpts d s ⟨hdef, hsec⟩ p h'
      · rw [h']
        exact hk

theorem keysNorm_ensure (d : Document) (n : String) (hd : KeysNormalized d) :
    KeysNormalized (ensureSection d n) := by
  rw [ensureSection]
  split_ifs with h
  · exact hd
  · refine ⟨hd.1, ?_⟩
    intro q hq p hp
    rcases List.mem_append.mp hq with h' | h'
    · exact hd.2 q h' p hp
    · simp at h'
      rw [h'] at hp
      simp at hp

theorem keysNorm_appendFrag (d : Document) (cur : Option String) (k : String)
    (b : Nat) (frag : String)
    (hd : KeysNormalized d) (hk : optionxform k = k) :
    KeysNormalized (appendFrag d cur k b frag) := by
  rw [appendFrag]
  cases curLookup d cur k <;> exact keysNorm_storeKV d cur k _ hd hk

theorem classify_keys_norm (st : PState) (line t : String) (st' : PState)
    (hinv : StateKeysNorm st) (h : classify st line t = .ok st') : StateKeysNorm st' := by
  obtain ⟨h1, h2⟩ := hinv
  rw [classify] at h
  rcases hph : parseHeader t.data with _ | name
  · simp only [hph] at h
    by_cases hhd : t.data.head? = some '['
    · rw [if_pos hhd] at h
      exact Except.noConfusion h
    · rw [if_neg hhd] at h
      rcases hsd : splitDelim t.data with _ | kv
      · simp only [hsd] at h
        exact Except.noConfusion h
      · simp only [hsd] at h
        by_cases hke : optionxform (strim ⟨kv.1⟩) = ""
        · rw [if_pos hke] at h
          exact Except.noConfusion h
        · rw [if_neg hke] at h
          simp only [Except.ok.injEq] at h
          subst h
          refine ⟨keysNorm_storeKV st.doc st.cur _ _ h1 (optionxform_idem _), ?_⟩
          intro ki hki
          simp only [Option.some.injEq] at hki
          rw [← hki]
          exact optionxform_idem _
  · simp only [hph] at h
    by_cases hdef : name = "DEFAULT"
    · rw [if_pos hdef] at h
      simp only [Except.ok.injEq] at h
      subst h
      exact ⟨h1, fun ki hki => Option.noConfusion hki⟩
    · rw [if_neg hdef] at h
      by_cases hseen : st.seen.contains name = true
      · rw [if_pos hseen] at h
        exact Except.noConfusion h
      · rw [if_neg hseen] at h
        simp only [Except.ok.injEq] at h
        subst h
        exact ⟨keysNorm_ensure st.doc name h1, fun ki hki => Option.noConfusion hki⟩

theorem pstep_keys_norm (st : PState) (line : String) (st' : PState)
    (hinv : StateKeysNorm st) (h : pstep st line = .ok st') : StateKeysNorm st' := by
  obtain ⟨h1, h2⟩ := hinv
  simp only [pstep] at h
  by_cases hblank : strim line = ""
  · rw [if_pos hblank] at h
    simp only [Except.ok.injEq] at h
    subst h
    split_ifs <;> exact ⟨h1, h2⟩
  · rw [if_neg hblank] at h
    by_cases hcmt : isCommentLine (strim line) = true
    · rw [if_pos hcmt] at h
      simp only [Except.ok.injEq] at h
      subst h
      exact ⟨h1, h2⟩
    · rw [if_neg hcmt] at h
      rcases hco : st.curOpt with _ | ki
      · simp only [hco] at h
        exact classify_keys_norm ⟨st.doc, st.cur, none, 0, st.seen⟩ line _ st'
          ⟨h1, fun ki hki => Option.noConfusion hki⟩ h
      · simp only [hco] at h
        by_cases hind : ki.2 < indentOf line
        · rw [if_pos hind] at h
          simp only [Except.ok.injEq] at h
          subst h
          refine ⟨keysNorm_appendFrag st.doc st.cur ki.1 st.blanks _ h1 (h2 ki hco), ?_⟩
          intro ki' hki'
          have hkk : ki = ki' := Option.some.inj hki'
          rw [← hkk]
          exact h2 ki hco
        · rw [if_neg hind] at h
          exact classify_keys_norm ⟨st.doc, st.cur, none, 0, st.seen⟩ line _ st'
            ⟨h1, fun ki' hki' => Option.noConfusion hki'⟩ h

theorem pfold_keys_norm (lines : List String) : ∀ (st st' : PState),
    StateKeysNorm st → pfold lines st = .ok st' → StateKeysNorm st' := by
  induction lines with
  | nil =>
    intro st st' hinv h
    rw [pfold] at h
    simp only [Except.ok.injEq] at h
    exact h ▸ hinv
  | cons l ls ih =>
    intro st st' hinv h
    rw [pfold] at h
    rcases hps : pstep st l with e | st1
    · simp only [hps] at h
      exact Except.noConfusion h
    · simp only [hps] at h
      exact ih st1 st' (pstep_keys_norm st l st1 hinv hps) h

/-- C6: option-key comparison is case-insensitive via lowercase normalization,
while section names are case-sensitive.  Two key spellings with the same
normalized form read the same option through the mapping protocol; every
Document produced by parsing from a key-normalized starting Document (in
particular the empty one) stores only normalized keys, so iteration/display
yields the lowercase form; and membership for a freshly created section
succeeds exactly on the exact-case name. -/
theorem case_handling (d : Document) (s k1 k2 : String)
    (lines : List String) (d' : Document) (n n' : String)
    (hk : optionxform k1 = optionxform k2)
    (hnorm : KeysNormalized d)
    (hparse : read_lines lines d = .ok d') :
    itemGet d' s k1 = itemGet d' s k2 ∧
    KeysNormalized d' ∧
    (hasSection (ensureSection emptyDocument n) n' = true ↔ n' = n) := by
  refine ⟨?_, ?_, ?_⟩
  · rw [itemGet, itemGet, hk]
  · rw [read_lines] at hparse
    rcases hp : pfold lines (initState d) with e | st' <;> rw [hp] at hparse
    · exact Except.noConfusion hparse
    · simp only [Except.map, Except.ok.injEq] at hparse
      subst hparse
      exact (pfold_keys_norm lines (initState d) st'
        ⟨hnorm, fun ki hki => Option.noConfusion hki⟩ hp).1
  · constructor
    · intro hh
      by_contra hne
      have hne' : ¬ n = n' := fun he => hne he.symm
      simp [hasSection, ensureSection, emptyDocument, alookup, hne'] at hh
    · intro hh
      subst hh
      simp [hasSection, ensureSection, emptyDocument, alookup]

/-- C6 witness: `KEY` and `key` read the same option of section `Sect`, the
Document parsed from a mixed-case source has lowercase keys only, and the
section `Sect` is a member under the exact spelling `Sect` (so not under
`sect`: the right-hand side `"sect" = "Sect"` of the proved equivalence is
decidably false). -/
theorem case_handling_witness :
    itemGet ⟨[], [("Sect", [("key", "7")])]⟩ "Sect" "KEY"
      = itemGet ⟨[], [("Sect", [("key", "7")])]⟩ "Sect" "key" ∧
    KeysNormalized ⟨[], [("Sect", [("key", "7")])]⟩ ∧
    (hasSection (ensureSection emptyDocument "Sect") "sect" = true ↔ "sect" = "Sect") :=
  case_handling emptyDocument "Sect" "KEY" "key" ["[Sect]", "KEY = 7"]
    ⟨[], [("Sect", [("key", "7")])]⟩ "Sect" "sect"
    (by decide) (by decide) (by decide)

end Config
